import Mathlib

/-!
Verification development for the NumberSliderSolver repository.

The program is a parallel best-first search over sliding-tile boards under
two cost models (adjacent swap, block shift).  The definitions below are a
shallow embedding of the C++ source: `Board` and its member functions come
from src/Board.hpp, `State`, `CompareStateForTBB` and `Solution` from
src/PuzzleSolver.hpp, and the worker loop, solution collector and path
reconstruction from PuzzleSolver.cpp.  Machine `int` values that are always
non-negative in the program (tile values, costs, counters) are modelled as
`Nat`; board coordinates, which the program compares against `0` after
adding signed direction offsets, are modelled as `Int`.  The concurrent
containers are modelled by their sequential contents (association lists for
the two hash maps, an ordered list for the `std::set` of solutions); state
changes are serialized, as in a single-worker run.
-/

namespace NumberSlider

/-- Board from src/Board.hpp: grid dimensions, row-major tile list
(0 is the blank) and the cached blank coordinates. -/
structure Board where
  N : Nat
  M : Nat
  tiles : List Nat
  empty_row : Int
  empty_col : Int
deriving DecidableEq, Repr

/-- Board constructor from src/Board.hpp: scans indices `0 .. N*M-1` for the
first tile equal to 0 and caches its row/column coordinates. -/
def mkBoard (n m : Nat) (initial_tiles : List Nat) : Board :=
  let idx := (List.range (n * m)).findIdx fun i => initial_tiles.getD i 1 == 0
  { N := n, M := m, tiles := initial_tiles,
    empty_row := ((idx / m : Nat) : Int), empty_col := ((idx % m : Nat) : Int) }

/-- Goal test from src/Board.hpp: tiles `1 .. N*M-1` in order, blank last. -/
def Board.is_goal (b : Board) : Bool :=
  ((List.range (b.N * b.M - 1)).all fun i => b.tiles.getD i 0 == i + 1) &&
  (b.tiles.getD (b.N * b.M - 1) 1 == 0)

/-- Manhattan-distance contribution of the tile with value `v` sitting at
index `i` of a board with `m` columns; the blank contributes 0, any other
value `v` is measured against its target index `v - 1` (src/Board.hpp,
`get_manhattan_distance` loop body). -/
def manhattanTerm (m i v : Nat) : Nat :=
  if v = 0 then 0
  else (((i / m : Nat) : Int) - (((v - 1) / m : Nat) : Int)).natAbs +
       (((i % m : Nat) : Int) - (((v - 1) % m : Nat) : Int)).natAbs

/-- Manhattan-distance heuristic from src/Board.hpp: sum of the per-tile
terms over all board indices. -/
def Board.get_manhattan_distance (b : Board) : Nat :=
  ∑ i ∈ Finset.range (b.N * b.M), manhattanTerm b.M i (b.tiles.getD i 0)

/-- Exchange of the entries at indices `i` and `j`, as `std::swap` on two
elements of the tile vector. -/
def swapTiles (l : List Nat) (i j : Nat) : List Nat :=
  let a := l.getD i 0
  let b := l.getD j 0
  (l.set i b).set j a

/-- Direction table shared by both neighbor generators in src/Board.hpp:
up, down, left, right as (row offset, column offset). -/
def dirs : List (Int × Int) := [(-1, 0), (1, 0), (0, -1), (0, 1)]

/-- Adjacent-swap successor generation from src/Board.hpp: for each of the
four directions whose target cell is in bounds, swap the blank with that
cell and update the cached blank coordinates. -/
def Board.get_neighbors_adjacent_swap (b : Board) : List Board :=
  dirs.filterMap fun d =>
    let new_row := b.empty_row + d.1
    let new_col := b.empty_col + d.2
    if 0 ≤ new_row ∧ new_row < (b.N : Int) ∧ 0 ≤ new_col ∧ new_col < (b.M : Int) then
      let new_empty_idx := (new_row * (b.M : Int) + new_col).toNat
      let old_empty_idx := (b.empty_row * (b.M : Int) + b.empty_col).toNat
      some { b with tiles := swapTiles b.tiles old_empty_idx new_empty_idx,
                    empty_row := new_row, empty_col := new_col }
    else none

/-- Inner while-loop of `get_neighbors_block_shift` (src/Board.hpp): walk
outward from the blank in direction (dir_r, dir_c); at each in-bounds cell
swap it with the cell one step back, record the intermediate board, and
continue.  The C++ loop stops at the first out-of-bounds cell; the `fuel`
argument dominates the number of in-bounds steps (at most `N + M`), so the
embedding returns exactly the boards the loop pushes. -/
def blockShiftWalk (N M : Nat) (dir_r dir_c : Int) :
    Nat → Board → Int → Int → List Board
  | 0, _, _, _ => []
  | fuel + 1, cur, r, c =>
    if 0 ≤ r ∧ r < (N : Int) ∧ 0 ≤ c ∧ c < (M : Int) then
      let ti := (r * (M : Int) + c).toNat
      let pidx := ((r - dir_r) * (M : Int) + (c - dir_c)).toNat
      let nb : Board := { cur with tiles := swapTiles cur.tiles ti pidx,
                                   empty_row := r, empty_col := c }
      nb :: blockShiftWalk N M dir_r dir_c fuel nb (r + dir_r) (c + dir_c)
    else []

/-- Block-shift successor generation from src/Board.hpp: for each of the
four directions, all boards produced by the outward walk, concatenated in
direction order. -/
def Board.get_neighbors_block_shift (b : Board) : List Board :=
  (dirs.map fun d =>
    blockShiftWalk b.N b.M d.1 d.2 (b.N + b.M) b (b.empty_row + d.1) (b.empty_col + d.2)).flatten

/-- Search node from src/PuzzleSolver.hpp: a board with its g, h and
f = g + h costs. -/
structure State where
  board : Board
  g_cost : Nat
  h_cost : Nat
  f_cost : Nat
deriving DecidableEq, Repr

/-- State constructor from src/PuzzleSolver.hpp: stores f = g + h. -/
def mkState (b : Board) (g h : Nat) : State :=
  { board := b, g_cost := g, h_cost := h, f_cost := g + h }

/-- Priority comparator from src/PuzzleSolver.hpp, used by the concurrent
priority queue: `true` means the second argument has priority over the
first. -/
def CompareStateForTBB (a b : State) : Bool :=
  if a.f_cost ≠ b.f_cost then decide (a.f_cost > b.f_cost)
  else decide (a.g_cost > b.g_cost)

/-- Cost model selector from src/PuzzleSolver.hpp. -/
inductive SolveType
  | AdjacentSwap
  | BlockShift
deriving DecidableEq, Repr

/-- Solution record from src/PuzzleSolver.hpp: total cost and the board
sequence from initial to goal. -/
structure Solution where
  cost : Nat
  path : List Board
deriving DecidableEq, Repr

/-- Lexicographic strict comparison of two lists by a strict element
comparison, as `std::lexicographical_compare` underlying `operator<` on
`std::vector`. -/
def listLtBy (lt : α → α → Bool) : List α → List α → Bool
  | _, [] => false
  | [], _ :: _ => true
  | a :: as, b :: bs =>
    if lt a b then true else if lt b a then false else listLtBy lt as bs

/-- Board comparison from src/Board.hpp `Board::operator<`: boards of
different dimensions compare by dimensions, otherwise the tile vectors
compare lexicographically. -/
def boardLt (a b : Board) : Bool :=
  if a.N ≠ b.N ∨ a.M ≠ b.M then
    decide (a.N < b.N ∨ (a.N = b.N ∧ a.M < b.M))
  else
    listLtBy (fun x y : Nat => decide (x < y)) a.tiles b.tiles

/-- Solution comparison from src/PuzzleSolver.hpp `Solution::operator<`:
by cost, ties broken by lexicographic path comparison. -/
def solutionLt (a b : Solution) : Bool :=
  if a.cost ≠ b.cost then decide (a.cost < b.cost)
  else listLtBy boardLt a.path b.path

/-- Ordered-set insertion with comparator `solutionLt`, the sequential model
of `std::set<Solution>::insert`: the element is placed at its ordered
position and dropped if an equivalent element (neither less nor greater) is
already present. -/
def setInsert : List Solution → Solution → List Solution
  | [], x => [x]
  | y :: ys, x =>
    if solutionLt x y then x :: y :: ys
    else if solutionLt y x then y :: setInsert ys x
    else y :: ys

/-- Extraction loop at the end of `PuzzleSolver::solve`: copy solutions from
the ordered collector until `num_solutions_to_find` of them are taken. -/
def extractTopK (found : List Solution) (num_solutions_to_find : Nat) : List Solution :=
  found.take num_solutions_to_find

/-- Key equality used by the two hash maps keyed on `Board`:
`Board::operator==` compares the tile vectors only. -/
def boardKeyEq (a b : Board) : Bool := a.tiles == b.tiles

/-- Lookup in an association list keyed by `Board` under `boardKeyEq`; the
sequential model of `find` on `tbb::concurrent_unordered_map`. -/
def lookupA {α : Type} : List (Board × α) → Board → Option α
  | [], _ => none
  | (k, v) :: rest, b => if boardKeyEq k b then some v else lookupA rest b

/-- Overwrite of the value stored for an existing key (append if the key is
absent); the sequential model of assigning through an iterator or through
`operator[]`. -/
def storeA {α : Type} : List (Board × α) → Board → α → List (Board × α)
  | [], b, v => [(b, v)]
  | (k, w) :: rest, b, v =>
    if boardKeyEq k b then (k, v) :: rest else (k, w) :: storeA rest b v

/-- Insert-if-absent; the sequential model of `emplace` on
`tbb::concurrent_unordered_map` (no effect when the key is present). -/
def emplaceA {α : Type} (m : List (Board × α)) (b : Board) (v : α) : List (Board × α) :=
  match lookupA m b with
  | some _ => m
  | none => m ++ [(b, v)]

/-- Backward walk of `PuzzleSolver::reconstruct_path`: starting from the
goal board, repeatedly append the current board and follow its parent link;
stop on reaching the initial board (compared with `Board::operator==`) or,
as the logged fatal case, on a board with no parent entry.  The C++ loop
has no fuel; `none` models the walk still running after `fuel` steps. -/
def reconstructWalk (came_from : List (Board × Board)) (initial : Board) :
    Nat → Board → List Board → Option (List Board)
  | 0, _, _ => none
  | fuel + 1, current, path =>
    if boardKeyEq current initial then some path
    else
      match lookupA came_from current with
      | some parent => reconstructWalk came_from initial fuel parent (path ++ [current])
      | none => some (path ++ [current])

/-- Path reconstruction from PuzzleSolver.cpp: run the backward walk, append
the initial board, and reverse so the result runs initial to goal. -/
def reconstruct_path (came_from : List (Board × Board)) (goal_board initial : Board)
    (fuel : Nat) : Option (List Board) :=
  (reconstructWalk came_from initial fuel goal_board []).map
    fun p => (p ++ [initial]).reverse

/-- Shared solver state of `PuzzleSolver`, serialized: the frontier contents,
the two maps, the collected solutions (ordered as in the `std::set`), the
stop flag and the explored-state counter. -/
structure SolverState where
  open_set : List State
  g_costs : List (Board × Nat)
  came_from : List (Board × Board)
  found_solutions : List Solution
  terminate_search : Bool
  states_explored : Nat
deriving DecidableEq, Repr

/-- Successor generation selected by the cost model
(worker_thread_func, neighbor dispatch). -/
def neighborsFor (type : SolveType) (b : Board) : List Board :=
  match type with
  | .AdjacentSwap => b.get_neighbors_adjacent_swap
  | .BlockShift => b.get_neighbors_block_shift

/-- Relaxation of one successor board in `worker_thread_func`: `new_g` is the
popped state's g plus one; a first visit inserts (g, parent) and pushes a new
frontier state; a strictly cheaper rediscovery overwrites g, pushes a new
frontier state, and overwrites the parent; otherwise nothing changes. -/
def relaxNeighbor (current : State) (st : SolverState) (neighbor_board : Board) :
    SolverState :=
  let new_g_cost := current.g_cost + 1
  match lookupA st.g_costs neighbor_board with
  | none =>
    let neighbor_h := neighbor_board.get_manhattan_distance
    { st with g_costs := st.g_costs ++ [(neighbor_board, new_g_cost)],
              open_set := st.open_set ++ [mkState neighbor_board new_g_cost neighbor_h],
              came_from := emplaceA st.came_from neighbor_board current.board }
  | some stored_g =>
    if new_g_cost < stored_g then
      let neighbor_h := neighbor_board.get_manhattan_distance
      { st with g_costs := storeA st.g_costs neighbor_board new_g_cost,
                open_set := st.open_set ++ [mkState neighbor_board new_g_cost neighbor_h],
                came_from := storeA st.came_from neighbor_board current.board }
    else st

/-- Branch taken by one iteration of the worker loop. -/
inductive IterResult
  | timedOut
  | pruned
  | stale
  | goalFound
  | expanded
deriving DecidableEq, Repr

/-- One iteration of the worker loop in `worker_thread_func`, applied to a
state already popped from the frontier.  In source order: increment the
explored counter; on an elapsed time budget set the stop flag and exit; if
the collector holds at least K solutions and the popped f is at least the
K-th best cost, discard; if the cost table's best g for this board is
smaller than the popped g, discard as stale; on the goal, reconstruct the
path and insert it with cost g into the collector, setting the stop flag
once at least K solutions are held; otherwise relax every successor under
the active cost model.  Wall-clock polling is abstracted into the boolean
`timeoutNow`, and the fuel bounds the reconstruction walk. -/
def workerIter (type : SolveType) (num_solutions_to_find : Nat) (initial : Board)
    (reconFuel : Nat) (timeoutNow : Bool) (st : SolverState) (current : State) :
    SolverState × IterResult :=
  let st := { st with states_explored := st.states_explored + 1 }
  if timeoutNow then ({ st with terminate_search := true }, .timedOut)
  else
    let current_nth_best_cost : Int :=
      if num_solutions_to_find ≤ st.found_solutions.length then
        match st.found_solutions.get? (num_solutions_to_find - 1) with
        | some s => (s.cost : Int)
        | none => -1
      else -1
    if current_nth_best_cost ≠ -1 ∧ current_nth_best_cost ≤ (current.f_cost : Int) then
      (st, .pruned)
    else if (match lookupA st.g_costs current.board with
             | some stored_g => decide (stored_g < current.g_cost)
             | none => false) then
      (st, .stale)
    else if current.board.is_goal then
      let found2 :=
        match reconstruct_path st.came_from current.board initial reconFuel with
        | some path => setInsert st.found_solutions { cost := current.g_cost, path := path }
        | none => st.found_solutions
      let term2 := st.terminate_search || decide (num_solutions_to_find ≤ found2.length)
      ({ st with found_solutions := found2, terminate_search := term2 }, .goalFound)
    else
      ((neighborsFor type current.board).foldl (relaxNeighbor current) st, .expanded)

/-- Index of the cached blank position in the row-major tile list. -/
def blankIdx (b : Board) : Nat :=
  (b.empty_row * (b.M : Int) + b.empty_col).toNat

/-- Well-formedness of a board as the program constructs and maintains it:
positive dimensions, a tile list of the right length, cached blank
coordinates in bounds and actually pointing at a zero tile. -/
def BoardValid (b : Board) : Prop :=
  1 ≤ b.N ∧ 1 ≤ b.M ∧ b.tiles.length = b.N * b.M ∧
  0 ≤ b.empty_row ∧ b.empty_row < (b.N : Int) ∧
  0 ≤ b.empty_col ∧ b.empty_col < (b.M : Int) ∧
  b.tiles.getD (blankIdx b) 0 = 0

instance (b : Board) : Decidable (BoardValid b) := by
  unfold BoardValid; infer_instance

/-- Move sequences of length `k` under the adjacent-swap cost model: each
step replaces the board by one of its `get_neighbors_adjacent_swap`
successors. -/
inductive SwapPath : Board → Nat → Board → Prop
  | refl (b : Board) : SwapPath b 0 b
  | step {b b2 g : Board} {k : Nat} :
      b2 ∈ b.get_neighbors_adjacent_swap → SwapPath b2 k g → SwapPath b (k + 1) g

/-- The four orthogonal direction vectors of the `dirs` table. -/
def IsDir (dr dc : Int) : Prop :=
  (dr = -1 ∧ dc = 0) ∨ (dr = 1 ∧ dc = 0) ∨ (dr = 0 ∧ dc = -1) ∨ (dr = 0 ∧ dc = 1)

instance (dr dc : Int) : Decidable (IsDir dr dc) := by
  unfold IsDir; infer_instance

/-- Row-major index of the cell at shift distance `t` from the blank of `b`
in direction (dr, dc). -/
def shiftIdx (b : Board) (dr dc : Int) (t : Nat) : Nat :=
  ((b.empty_row + (t : Int) * dr) * (b.M : Int) + (b.empty_col + (t : Int) * dc)).toNat

/-- Description of the board reached after the first `s` steps of the
block-shift walk of `b` in direction (dr, dc): same dimensions, blank moved
to distance `s`, the run of `s` cells next to the original blank holding the
tiles shifted one cell inward, all cells up to distance `s` in bounds, and
every other cell untouched. -/
def ShiftedBy (b : Board) (dr dc : Int) (s : Nat) (cur : Board) : Prop :=
  cur.N = b.N ∧ cur.M = b.M ∧ cur.tiles.length = b.tiles.length ∧
  cur.empty_row = b.empty_row + (s : Int) * dr ∧
  cur.empty_col = b.empty_col + (s : Int) * dc ∧
  (∀ t : Nat, t ≤ s →
    0 ≤ b.empty_row + (t : Int) * dr ∧ b.empty_row + (t : Int) * dr < (b.N : Int) ∧
    0 ≤ b.empty_col + (t : Int) * dc ∧ b.empty_col + (t : Int) * dc < (b.M : Int)) ∧
  (∀ t : Nat, t < s →
    cur.tiles.getD (shiftIdx b dr dc t) 0 = b.tiles.getD (shiftIdx b dr dc (t + 1)) 0) ∧
  cur.tiles.getD (shiftIdx b dr dc s) 0 = b.tiles.getD (shiftIdx b dr dc 0) 0 ∧
  (∀ i, i < b.tiles.length → (∀ t : Nat, t ≤ s → i ≠ shiftIdx b dr dc t) →
    cur.tiles.getD i 0 = b.tiles.getD i 0)

/-- Finite-termination certificate for the backward parent walk: from `cur`
the chain reaches the initial board, or a board with no parent entry, after
`k` parent-following steps. -/
inductive ChainEnds (came_from : List (Board × Board)) (initial : Board) :
    Board → Nat → Prop
  | reached (cur : Board) : boardKeyEq cur initial = true →
      ChainEnds came_from initial cur 0
  | missing (cur : Board) : boardKeyEq cur initial = false →
      lookupA came_from cur = none → ChainEnds came_from initial cur 0
  | step (cur parent : Board) (k : Nat) : boardKeyEq cur initial = false →
      lookupA came_from cur = some parent → ChainEnds came_from initial parent k →
      ChainEnds came_from initial cur (k + 1)

end NumberSlider

namespace NumberSlider

/-- Claim C7: the comparator orders states so that the popped minimum has the
smallest f_cost, ties broken by smallest g_cost: `CompareStateForTBB a b`
holds exactly when `a.f_cost > b.f_cost`, or the f costs are equal and
`a.g_cost > b.g_cost`. -/
theorem compareStateForTBB_spec (a b : State) :
    CompareStateForTBB a b = true ↔
      (a.f_cost > b.f_cost ∨ (a.f_cost = b.f_cost ∧ a.g_cost > b.g_cost)) := by
  unfold CompareStateForTBB
  by_cases h : a.f_cost = b.f_cost <;> simp [h]

/-- Length of the upward block-shift walk: one successor per row from the
starting row down to row 0. -/
theorem blockShiftWalk_length_up (N M : Nat) (c : Int) (hc0 : 0 ≤ c)
    (hcM : c < (M : Int)) :
    ∀ (k fuel : Nat) (cur : Board) (r : Int), r + 1 = (k : Int) → k ≤ fuel →
      r < (N : Int) →
      (blockShiftWalk N M (-1) 0 fuel cur r c).length = k := by
  intro k
  induction k with
  | zero =>
    intro fuel cur r hr _ _
    cases fuel with
    | zero => simp [blockShiftWalk]
    | succ f => rw [blockShiftWalk, if_neg (by omega)]; simp
  | succ k ih =>
    intro fuel cur r hr hfuel hrN
    obtain ⟨f, rfl⟩ : ∃ f, fuel = f + 1 := ⟨fuel - 1, by omega⟩
    rw [blockShiftWalk, if_pos (by push_cast at hr ⊢; omega)]
    simp only [List.length_cons, add_zero]
    rw [ih f _ (r + -1) (by push_cast at hr ⊢; omega) (by omega) (by omega)]

/-- Length of the downward block-shift walk: one successor per row from the
starting row up to row N-1. -/
theorem blockShiftWalk_length_down (N M : Nat) (c : Int) (hc0 : 0 ≤ c)
    (hcM : c < (M : Int)) :
    ∀ (k fuel : Nat) (cur : Board) (r : Int), r + (k : Int) = (N : Int) →
      k ≤ fuel → 0 ≤ r →
      (blockShiftWalk N M 1 0 fuel cur r c).length = k := by
  intro k
  induction k with
  | zero =>
    intro fuel cur r hr _ _
    cases fuel with
    | zero => simp [blockShiftWalk]
    | succ f => rw [blockShiftWalk, if_neg (by omega)]; simp
  | succ k ih =>
    intro fuel cur r hr hfuel hr0
    obtain ⟨f, rfl⟩ : ∃ f, fuel = f + 1 := ⟨fuel - 1, by omega⟩
    rw [blockShiftWalk, if_pos (by push_cast at hr ⊢; omega)]
    simp only [List.length_cons, add_zero]
    rw [ih f _ (r + 1) (by push_cast at hr ⊢; omega) (by omega) (by omega)]

/-- Length of the leftward block-shift walk: one successor per column from
the starting column down to column 0. -/
theorem blockShiftWalk_length_left (N M : Nat) (r : Int) (hr0 : 0 ≤ r)
    (hrN : r < (N : Int)) :
    ∀ (k fuel : Nat) (cur : Board) (c : Int), c + 1 = (k : Int) → k ≤ fuel →
      c < (M : Int) →
      (blockShiftWalk N M 0 (-1) fuel cur r c).length = k := by
  intro k
  induction k with
  | zero =>
    intro fuel cur c hc _ _
    cases fuel with
    | zero => simp [blockShiftWalk]
    | succ f => rw [blockShiftWalk, if_neg (by omega)]; simp
  | succ k ih =>
    intro fuel cur c hc hfuel hcM
    obtain ⟨f, rfl⟩ : ∃ f, fuel = f + 1 := ⟨fuel - 1, by omega⟩
    rw [blockShiftWalk, if_pos (by push_cast at hc ⊢; omega)]
    simp only [List.length_cons, add_zero]
    rw [ih f _ (c + -1) (by push_cast at hc ⊢; omega) (by omega) (by omega)]

/-- Length of the rightward block-shift walk: one successor per column from
the starting column up to column M-1. -/
theorem blockShiftWalk_length_right (N M : Nat) (r : Int) (hr0 : 0 ≤ r)
    (hrN : r < (N : Int)) :
    ∀ (k fuel : Nat) (cur : Board) (c : Int), c + (k : Int) = (M : Int) →
      k ≤ fuel → 0 ≤ c →
      (blockShiftWalk N M 0 1 fuel cur r c).length = k := by
  intro k
  induction k with
  | zero =>
    intro fuel cur c hc _ _
    cases fuel with
    | zero => simp [blockShiftWalk]
    | succ f => rw [blockShiftWalk, if_neg (by omega)]; simp
  | succ k ih =>
    intro fuel cur c hc hfuel hc0
    obtain ⟨f, rfl⟩ : ∃ f, fuel = f + 1 := ⟨fuel - 1, by omega⟩
    rw [blockShiftWalk, if_pos (by push_cast at hc ⊢; omega)]
    simp only [List.length_cons, add_zero]
    rw [ih f _ (c + 1) (by push_cast at hc ⊢; omega) (by omega) (by omega)]

/-- Claim C10: for every board whose blank coordinates are in bounds,
block-shift successor generation returns exactly (N-1) + (M-1) successors:
along each of the four directions, one successor per cell strictly between
the blank and the grid edge, so the branching factor is the same for every
state of a run. -/
theorem blockShift_neighbor_count (b : Board)
    (her0 : 0 ≤ b.empty_row) (herN : b.empty_row < (b.N : Int))
    (hec0 : 0 ≤ b.empty_col) (hecM : b.empty_col < (b.M : Int)) :
    b.get_neighbors_block_shift.length = (b.N - 1) + (b.M - 1) := by
  unfold Board.get_neighbors_block_shift dirs
  simp only [List.map_cons, List.map_nil, List.flatten_cons, List.flatten_nil,
    List.length_append, List.length_nil, add_zero]
  rw [blockShiftWalk_length_up b.N b.M b.empty_col hec0 hecM b.empty_row.toNat _ _ _
        (by omega) (by omega) (by omega),
      blockShiftWalk_length_down b.N b.M b.empty_col hec0 hecM
        ((b.N : Int) - b.empty_row - 1).toNat _ _ _ (by omega) (by omega) (by omega),
      blockShiftWalk_length_left b.N b.M b.empty_row her0 herN b.empty_col.toNat _ _ _
        (by omega) (by omega) (by omega),
      blockShiftWalk_length_right b.N b.M b.empty_row her0 herN
        ((b.M : Int) - b.empty_col - 1).toNat _ _ _ (by omega) (by omega) (by omega)]
  omega

/-- Swapping two entries preserves the tile-list length. -/
theorem length_swapTiles (l : List Nat) (u w : Nat) :
    (swapTiles l u w).length = l.length := by
  simp [swapTiles]

/-- Pointwise description of the swapped tile list. -/
theorem getD_swapTiles (l : List Nat) (u w i : Nat) (hu : u < l.length)
    (hw : w < l.length) :
    (swapTiles l u w).getD i 0 =
      if i = w then l.getD u 0 else if i = u then l.getD w 0 else l.getD i 0 := by
  unfold swapTiles
  by_cases hiw : i = w
  · subst hiw
    simp [List.getD, List.getElem?_set_self, hw]
  · by_cases hiu : i = u
    · subst hiu
      simp [List.getD, List.getElem?_set_ne (Ne.symm hiw), List.getElem?_set_self, hu, hiw]
    · simp [List.getD, List.getElem?_set_ne (Ne.symm hiw), List.getElem?_set_ne (Ne.symm hiu),
        hiw, hiu]

/-- Row-major index of an in-bounds cell is in range. -/
theorem cellIdx_lt {r c n m : Nat} (hr : r < n) (hc : c < m) : r * m + c < n * m := by
  calc r * m + c < r * m + m := by omega
    _ = (r + 1) * m := by ring
    _ ≤ n * m := Nat.mul_le_mul_right m hr

/-- Row recovery from a row-major index. -/
theorem cellIdx_div {r c m : Nat} (hm : 0 < m) (hc : c < m) : (r * m + c) / m = r := by
  rw [mul_comm, Nat.mul_add_div hm, Nat.div_eq_of_lt hc]; omega

/-- Column recovery from a row-major index. -/
theorem cellIdx_mod {r c m : Nat} (hc : c < m) : (r * m + c) % m = c := by
  rw [mul_comm, Nat.mul_add_mod, Nat.mod_eq_of_lt hc]

/-- Moving a tile between two orthogonally adjacent cells changes its
Manhattan term by at most one. -/
theorem manhattanTerm_adjacent (m v ra ca rb cb : Nat) (hm : 0 < m)
    (hca : ca < m) (hcb : cb < m)
    (hadj : (ra = rb + 1 ∧ ca = cb) ∨ (rb = ra + 1 ∧ ca = cb) ∨
            (ra = rb ∧ ca = cb + 1) ∨ (ra = rb ∧ cb = ca + 1)) :
    manhattanTerm m (ra * m + ca) v ≤ manhattanTerm m (rb * m + cb) v + 1 := by
  unfold manhattanTerm
  by_cases hv : v = 0
  · simp [hv]
  · simp only [if_neg hv]
    rw [cellIdx_div hm hca, cellIdx_mod hca, cellIdx_div hm hcb, cellIdx_mod hcb]
    omega

/-- Core step bound: swapping the blank at cell (er, ec) with an adjacent
cell (r2, c2) lowers the Manhattan sum by at most one. -/
theorem manhattan_sum_swap_le (n m : Nat) (hm : 0 < m) (l : List Nat)
    (hlen : l.length = n * m) (er ec r2 c2 : Nat)
    (her : er < n) (hec : ec < m) (hr2 : r2 < n) (hc2 : c2 < m)
    (hadj : (er = r2 + 1 ∧ ec = c2) ∨ (r2 = er + 1 ∧ ec = c2) ∨
            (er = r2 ∧ ec = c2 + 1) ∨ (er = r2 ∧ c2 = ec + 1))
    (hblank : l.getD (er * m + ec) 0 = 0) :
    ∑ i ∈ Finset.range (n * m), manhattanTerm m i (l.getD i 0) ≤
      1 + ∑ i ∈ Finset.range (n * m),
        manhattanTerm m i ((swapTiles l (er * m + ec) (r2 * m + c2)).getD i 0) := by
  have hu : er * m + ec < n * m := cellIdx_lt her hec
  have hw : r2 * m + c2 < n * m := cellIdx_lt hr2 hc2
  have hune : er * m + ec ≠ r2 * m + c2 := by
    rcases hadj with ⟨h1, h2⟩ | ⟨h1, h2⟩ | ⟨h1, h2⟩ | ⟨h1, h2⟩ <;> subst h1 <;> subst h2 <;>
      first
        | (rw [Nat.succ_mul]; omega)
        | omega
  have hsplit : ∀ (f : Nat → Nat),
      ∑ i ∈ Finset.range (n * m), f i =
        f (er * m + ec) + (f (r2 * m + c2) +
          ∑ i ∈ ((Finset.range (n * m)).erase (er * m + ec)).erase (r2 * m + c2), f i) := by
    intro f
    rw [← Finset.add_sum_erase _ f (Finset.mem_range.mpr hu)]
    congr 1
    rw [← Finset.add_sum_erase _ f
      (Finset.mem_erase.mpr ⟨Ne.symm hune, Finset.mem_range.mpr hw⟩)]
  rw [hsplit fun i => manhattanTerm m i (l.getD i 0),
    hsplit fun i => manhattanTerm m i ((swapTiles l (er * m + ec) (r2 * m + c2)).getD i 0)]
  have hul : er * m + ec < l.length := by omega
  have hwl : r2 * m + c2 < l.length := by omega
  have e1 : manhattanTerm m (er * m + ec) (l.getD (er * m + ec) 0) = 0 := by
    rw [hblank]; simp [manhattanTerm]
  have e2 : manhattanTerm m (r2 * m + c2)
      ((swapTiles l (er * m + ec) (r2 * m + c2)).getD (r2 * m + c2) 0) = 0 := by
    rw [getD_swapTiles l _ _ _ hul hwl, if_pos rfl, hblank]; simp [manhattanTerm]
  have e3 : (swapTiles l (er * m + ec) (r2 * m + c2)).getD (er * m + ec) 0 =
      l.getD (r2 * m + c2) 0 := by
    rw [getD_swapTiles l _ _ _ hul hwl, if_neg hune, if_pos rfl]
  have e4 : ∑ i ∈ ((Finset.range (n * m)).erase (er * m + ec)).erase (r2 * m + c2),
        manhattanTerm m i ((swapTiles l (er * m + ec) (r2 * m + c2)).getD i 0) =
      ∑ i ∈ ((Finset.range (n * m)).erase (er * m + ec)).erase (r2 * m + c2),
        manhattanTerm m i (l.getD i 0) := by
    refine Finset.sum_congr rfl fun i hi => ?_
    have hiw : i ≠ r2 * m + c2 := (Finset.mem_erase.mp hi).1
    have hiu : i ≠ er * m + ec := (Finset.mem_erase.mp (Finset.mem_erase.mp hi).2).1
    rw [getD_swapTiles l _ _ _ hul hwl, if_neg hiw, if_neg hiu]
  rw [e1, e2, e3, e4]
  have e5 : manhattanTerm m (r2 * m + c2) (l.getD (r2 * m + c2) 0) ≤
      manhattanTerm m (er * m + ec) (l.getD (r2 * m + c2) 0) + 1 := by
    apply manhattanTerm_adjacent m _ r2 c2 er ec hm hc2 hec
    omega
  omega

/-- Decomposition of membership in the adjacent-swap neighbor list: the
successor is the swap of the blank with an in-bounds cell one step away in
one of the four directions. -/
theorem adjacent_neighbor_decomp (b b2 : Board)
    (hmem : b2 ∈ b.get_neighbors_adjacent_swap) :
    ∃ dr dc : Int,
      ((dr = -1 ∧ dc = 0) ∨ (dr = 1 ∧ dc = 0) ∨ (dr = 0 ∧ dc = -1) ∨ (dr = 0 ∧ dc = 1)) ∧
      0 ≤ b.empty_row + dr ∧ b.empty_row + dr < (b.N : Int) ∧
      0 ≤ b.empty_col + dc ∧ b.empty_col + dc < (b.M : Int) ∧
      b2 = { b with
              tiles := swapTiles b.tiles
                ((b.empty_row * (b.M : Int) + b.empty_col).toNat)
                (((b.empty_row + dr) * (b.M : Int) + (b.empty_col + dc)).toNat),
              empty_row := b.empty_row + dr, empty_col := b.empty_col + dc } := by
  unfold Board.get_neighbors_adjacent_swap at hmem
  rw [List.mem_filterMap] at hmem
  obtain ⟨d, hd, heq⟩ := hmem
  simp only [dirs, List.mem_cons, List.not_mem_nil, or_false] at hd
  rcases hd with rfl | rfl | rfl | rfl
  · simp only at heq
    split at heq
    · rename_i hcond
      injection heq with h
      subst h
      exact ⟨-1, 0, Or.inl ⟨rfl, rfl⟩, hcond.1, hcond.2.1, hcond.2.2.1, hcond.2.2.2, rfl⟩
    · exact Option.noConfusion heq
  · simp only at heq
    split at heq
    · rename_i hcond
      injection heq with h
      subst h
      exact ⟨1, 0, Or.inr (Or.inl ⟨rfl, rfl⟩), hcond.1, hcond.2.1, hcond.2.2.1, hcond.2.2.2, rfl⟩
    · exact Option.noConfusion heq
  · simp only at heq
    split at heq
    · rename_i hcond
      injection heq with h
      subst h
      exact ⟨0, -1, Or.inr (Or.inr (Or.inl ⟨rfl, rfl⟩)), hcond.1, hcond.2.1, hcond.2.2.1,
        hcond.2.2.2, rfl⟩
    · exact Option.noConfusion heq
  · simp only at heq
    split at heq
    · rename_i hcond
      injection heq with h
      subst h
      exact ⟨0, 1, Or.inr (Or.inr (Or.inr ⟨rfl, rfl⟩)), hcond.1, hcond.2.1, hcond.2.2.1,
        hcond.2.2.2, rfl⟩
    · exact Option.noConfusion heq

/-- Row-major index of an in-bounds cell given by integer coordinates is
in range. -/
theorem toNat_cellIdx_lt {r c : Int} {n m : Nat} (hr0 : 0 ≤ r) (hrn : r < (n : Int))
    (hc0 : 0 ≤ c) (hcm : c < (m : Int)) : (r * (m : Int) + c).toNat < n * m := by
  obtain ⟨rn, rfl⟩ : ∃ rn : Nat, r = rn := ⟨r.toNat, (Int.toNat_of_nonneg hr0).symm⟩
  obtain ⟨cn, rfl⟩ : ∃ cn : Nat, c = cn := ⟨c.toNat, (Int.toNat_of_nonneg hc0).symm⟩
  simp only [← Nat.cast_mul, ← Nat.cast_add, Int.toNat_natCast]
  exact cellIdx_lt (by exact_mod_cast hrn) (by exact_mod_cast hcm)

/-- Every board satisfying the goal predicate has Manhattan distance 0. -/
theorem manhattan_of_goal (b : Board) (hg : b.is_goal = true) :
    b.get_manhattan_distance = 0 := by
  unfold Board.is_goal at hg
  rw [Bool.and_eq_true] at hg
  obtain ⟨h1, h2⟩ := hg
  rw [List.all_eq_true] at h1
  unfold Board.get_manhattan_distance
  apply Finset.sum_eq_zero
  intro i hi
  rw [Finset.mem_range] at hi
  by_cases hlast : i = b.N * b.M - 1
  · subst hlast
    rw [beq_iff_eq] at h2
    have h0 : b.tiles.getD (b.N * b.M - 1) 0 = 0 := by
      rw [List.getD_eq_getElem?_getD] at h2 ⊢
      generalize b.tiles[b.N * b.M - 1]? = o at h2 ⊢
      cases o with
      | none => simp at h2
      | some v => simpa using h2
    rw [h0]
    simp [manhattanTerm]
  · have hmem : i ∈ List.range (b.N * b.M - 1) := List.mem_range.mpr (by omega)
    have hv := h1 i hmem
    rw [beq_iff_eq] at hv
    rw [hv]
    unfold manhattanTerm
    rw [if_neg (by omega)]
    simp [Nat.add_sub_cancel]

/-- Adjacent-swap successors of a valid board are valid. -/
theorem valid_of_neighbor (b b2 : Board) (hval : BoardValid b)
    (hmem : b2 ∈ b.get_neighbors_adjacent_swap) : BoardValid b2 := by
  obtain ⟨hN, hM, hlen, her0, herN, hec0, hecM, hblank⟩ := hval
  obtain ⟨dr, dc, hd, h1, h2, h3, h4, rfl⟩ := adjacent_neighbor_decomp b b2 hmem
  have hul : (b.empty_row * (b.M : Int) + b.empty_col).toNat < b.tiles.length := by
    rw [hlen]; exact toNat_cellIdx_lt her0 herN hec0 hecM
  have hwl : ((b.empty_row + dr) * (b.M : Int) + (b.empty_col + dc)).toNat <
      b.tiles.length := by
    rw [hlen]; exact toNat_cellIdx_lt h1 h2 h3 h4
  refine ⟨hN, hM, ?_, h1, h2, h3, h4, ?_⟩
  · rw [length_swapTiles]; exact hlen
  · unfold blankIdx at hblank ⊢
    rw [getD_swapTiles _ _ _ _ hul hwl, if_pos rfl]
    exact hblank

/-- Consistency of the Manhattan heuristic along one adjacent-swap move. -/
theorem manhattan_consistent (b b2 : Board) (hval : BoardValid b)
    (hmem : b2 ∈ b.get_neighbors_adjacent_swap) :
    b.get_manhattan_distance ≤ 1 + b2.get_manhattan_distance := by
  obtain ⟨hN, hM, hlen, her0, herN, hec0, hecM, hblank⟩ := hval
  obtain ⟨dr, dc, hd, h1, h2, h3, h4, rfl⟩ := adjacent_neighbor_decomp b b2 hmem
  obtain ⟨er, her⟩ : ∃ er : Nat, b.empty_row = er :=
    ⟨b.empty_row.toNat, (Int.toNat_of_nonneg her0).symm⟩
  obtain ⟨ec, hec⟩ : ∃ ec : Nat, b.empty_col = ec :=
    ⟨b.empty_col.toNat, (Int.toNat_of_nonneg hec0).symm⟩
  obtain ⟨r2, hr2⟩ : ∃ r2 : Nat, b.empty_row + dr = r2 :=
    ⟨(b.empty_row + dr).toNat, (Int.toNat_of_nonneg h1).symm⟩
  obtain ⟨c2, hc2⟩ : ∃ c2 : Nat, b.empty_col + dc = c2 :=
    ⟨(b.empty_col + dc).toNat, (Int.toNat_of_nonneg h3).symm⟩
  have hu_idx : (b.empty_row * (b.M : Int) + b.empty_col).toNat = er * b.M + ec := by
    rw [her, hec]; simp only [← Nat.cast_mul, ← Nat.cast_add, Int.toNat_natCast]
  have hw_idx : ((b.empty_row + dr) * (b.M : Int) + (b.empty_col + dc)).toNat =
      r2 * b.M + c2 := by
    rw [hr2, hc2]; simp only [← Nat.cast_mul, ← Nat.cast_add, Int.toNat_natCast]
  have hshow : ({ b with
      tiles := swapTiles b.tiles
        ((b.empty_row * (b.M : Int) + b.empty_col).toNat)
        (((b.empty_row + dr) * (b.M : Int) + (b.empty_col + dc)).toNat),
      empty_row := b.empty_row + dr,
      empty_col := b.empty_col + dc } : Board).get_manhattan_distance =
      ∑ i ∈ Finset.range (b.N * b.M),
        manhattanTerm b.M i ((swapTiles b.tiles (er * b.M + ec) (r2 * b.M + c2)).getD i 0) := by
    rw [← hu_idx, ← hw_idx]; rfl
  rw [hshow]
  unfold Board.get_manhattan_distance
  unfold blankIdx at hblank
  rw [hu_idx] at hblank
  have her' : er < b.N := by rw [her] at herN; exact_mod_cast herN
  have hec' : ec < b.M := by rw [hec] at hecM; exact_mod_cast hecM
  have hr2' : r2 < b.N := by rw [hr2] at h2; exact_mod_cast h2
  have hc2' : c2 < b.M := by rw [hc2] at h4; exact_mod_cast h4
  apply manhattan_sum_swap_le b.N b.M (by omega) b.tiles hlen er ec r2 c2 her' hec' hr2' hc2'
    ?_ hblank
  rcases hd with ⟨rfl, rfl⟩ | ⟨rfl, rfl⟩ | ⟨rfl, rfl⟩ | ⟨rfl, rfl⟩
  · refine Or.inl ⟨?_, ?_⟩ <;> omega
  · refine Or.inr (Or.inl ⟨?_, ?_⟩) <;> omega
  · refine Or.inr (Or.inr (Or.inl ⟨?_, ?_⟩)) <;> omega
  · refine Or.inr (Or.inr (Or.inr ⟨?_, ?_⟩)) <;> omega

/-- Admissibility of the Manhattan heuristic for adjacent-swap paths. -/
theorem manhattan_admissible (b g : Board) (k : Nat) (hp : SwapPath b k g) :
    BoardValid b → g.is_goal = true → b.get_manhattan_distance ≤ k := by
  induction hp with
  | refl b =>
    intro _ hg
    rw [manhattan_of_goal b hg]
  | step hmem hrest ih =>
    intro hval hg
    have hval2 := valid_of_neighbor _ _ hval hmem
    have hcons := manhattan_consistent _ _ hval hmem
    have hrec := ih hval2 hg
    omega

/-- Claim C2: the Manhattan-distance heuristic is admissible and consistent
for the AdjacentSwap cost model: for every valid board b,
get_manhattan_distance b is at most the length of every adjacent-swap move
sequence from b to a goal board, and for every successor b2 of b,
get_manhattan_distance b ≤ 1 + get_manhattan_distance b2. -/
theorem manhattan_admissible_and_consistent (b : Board) (hval : BoardValid b) :
    (∀ (k : Nat) (g : Board), SwapPath b k g → g.is_goal = true →
        b.get_manhattan_distance ≤ k) ∧
    (∀ b2 ∈ b.get_neighbors_adjacent_swap,
        b.get_manhattan_distance ≤ 1 + b2.get_manhattan_distance) :=
  ⟨fun k g hp hg => manhattan_admissible b g k hp hval hg,
   fun b2 hmem => manhattan_consistent b b2 hval hmem⟩

/-- Shift distance 0 is the blank cell itself. -/
theorem shiftIdx_zero (b : Board) (dr dc : Int) : shiftIdx b dr dc 0 = blankIdx b := by
  unfold shiftIdx blankIdx
  norm_num

/-- The walk invariant holds initially (no step taken yet). -/
theorem shiftedBy_zero (b : Board) (dr dc : Int) (hval : BoardValid b) :
    ShiftedBy b dr dc 0 b := by
  obtain ⟨hN, hM, hlen, her0, herN, hec0, hecM, hblank⟩ := hval
  refine ⟨rfl, rfl, rfl, by push_cast; ring, by push_cast; ring, ?_, ?_, rfl, ?_⟩
  · intro t ht
    interval_cases t
    constructor
    · push_cast; omega
    constructor
    · push_cast; omega
    constructor
    · push_cast; omega
    · push_cast; omega
  · intro t ht; omega
  · intro i _ _; rfl

/-- Distinct shift distances with in-bounds cells give distinct row-major
indices. -/
theorem shiftIdx_injOn (b : Board) (dr dc : Int) (hdir : IsDir dr dc) (hM : 1 ≤ b.M)
    (t1 t2 : Nat)
    (h1 : 0 ≤ b.empty_row + (t1 : Int) * dr ∧ b.empty_row + (t1 : Int) * dr < (b.N : Int) ∧
      0 ≤ b.empty_col + (t1 : Int) * dc ∧ b.empty_col + (t1 : Int) * dc < (b.M : Int))
    (h2 : 0 ≤ b.empty_row + (t2 : Int) * dr ∧ b.empty_row + (t2 : Int) * dr < (b.N : Int) ∧
      0 ≤ b.empty_col + (t2 : Int) * dc ∧ b.empty_col + (t2 : Int) * dc < (b.M : Int))
    (hne : t1 ≠ t2) : shiftIdx b dr dc t1 ≠ shiftIdx b dr dc t2 := by
  unfold shiftIdx
  intro h
  have hv1 : 0 ≤ (b.empty_row + (t1 : Int) * dr) * (b.M : Int) + (b.empty_col + (t1 : Int) * dc) :=
    add_nonneg (mul_nonneg h1.1 (by positivity)) h1.2.2.1
  have hv2 : 0 ≤ (b.empty_row + (t2 : Int) * dr) * (b.M : Int) + (b.empty_col + (t2 : Int) * dc) :=
    add_nonneg (mul_nonneg h2.1 (by positivity)) h2.2.2.1
  have heq : (b.empty_row + (t1 : Int) * dr) * (b.M : Int) + (b.empty_col + (t1 : Int) * dc) =
      (b.empty_row + (t2 : Int) * dr) * (b.M : Int) + (b.empty_col + (t2 : Int) * dc) := by
    rw [← Int.toNat_of_nonneg hv1, ← Int.toNat_of_nonneg hv2, h]
  have hM0 : (b.M : Int) ≠ 0 := by
    have h1M : (1 : Int) ≤ (b.M : Int) := by exact_mod_cast hM
    omega
  rcases hdir with ⟨rfl, rfl⟩ | ⟨rfl, rfl⟩ | ⟨rfl, rfl⟩ | ⟨rfl, rfl⟩
  · simp only [mul_neg_one, ← sub_eq_add_neg, mul_zero, add_zero] at heq
    have h2 : (b.empty_row - (t1 : Int)) * (b.M : Int) =
        (b.empty_row - (t2 : Int)) * (b.M : Int) := by omega
    have h3 := mul_right_cancel₀ hM0 h2
    omega
  · simp only [mul_one, mul_zero, add_zero] at heq
    have h2 : (b.empty_row + (t1 : Int)) * (b.M : Int) =
        (b.empty_row + (t2 : Int)) * (b.M : Int) := by omega
    have h3 := mul_right_cancel₀ hM0 h2
    omega
  · simp only [mul_neg_one, ← sub_eq_add_neg, mul_zero, add_zero] at heq
    omega
  · simp only [mul_one, mul_zero, add_zero] at heq
    omega

/-- One more swap of the walk extends the invariant by one shift distance. -/
theorem shiftedBy_step (b : Board) (dr dc : Int) (hdir : IsDir dr dc)
    (hM : 1 ≤ b.M) (hlen : b.tiles.length = b.N * b.M)
    (s : Nat) (cur : Board) (hs : ShiftedBy b dr dc s cur)
    (hb : 0 ≤ b.empty_row + ((s : Int) + 1) * dr ∧
      b.empty_row + ((s : Int) + 1) * dr < (b.N : Int) ∧
      0 ≤ b.empty_col + ((s : Int) + 1) * dc ∧
      b.empty_col + ((s : Int) + 1) * dc < (b.M : Int)) :
    ShiftedBy b dr dc (s + 1)
      { cur with
        tiles := swapTiles cur.tiles (shiftIdx b dr dc (s + 1)) (shiftIdx b dr dc s),
        empty_row := b.empty_row + ((s : Int) + 1) * dr,
        empty_col := b.empty_col + ((s : Int) + 1) * dc } := by
  obtain ⟨hN, hMe, hlc, hr, hc, hbnd, hrun, hblank0, hoth⟩ := hs
  have hb' : 0 ≤ b.empty_row + ((s + 1 : Nat) : Int) * dr ∧
      b.empty_row + ((s + 1 : Nat) : Int) * dr < (b.N : Int) ∧
      0 ≤ b.empty_col + ((s + 1 : Nat) : Int) * dc ∧
      b.empty_col + ((s + 1 : Nat) : Int) * dc < (b.M : Int) := by
    push_cast
    exact hb
  have hbnd2 : ∀ t : Nat, t ≤ s + 1 →
      0 ≤ b.empty_row + (t : Int) * dr ∧ b.empty_row + (t : Int) * dr < (b.N : Int) ∧
      0 ≤ b.empty_col + (t : Int) * dc ∧ b.empty_col + (t : Int) * dc < (b.M : Int) := by
    intro t ht
    rcases Nat.lt_or_ge t (s + 1) with h | h
    · exact hbnd t (by omega)
    · have : t = s + 1 := by omega
      subst this
      exact hb'
  have hwlt : shiftIdx b dr dc (s + 1) < cur.tiles.length := by
    rw [hlc, hlen]
    exact toNat_cellIdx_lt (hbnd2 (s + 1) le_rfl).1 (hbnd2 (s + 1) le_rfl).2.1
      (hbnd2 (s + 1) le_rfl).2.2.1 (hbnd2 (s + 1) le_rfl).2.2.2
  have hult : shiftIdx b dr dc s < cur.tiles.length := by
    rw [hlc, hlen]
    exact toNat_cellIdx_lt (hbnd s le_rfl).1 (hbnd s le_rfl).2.1
      (hbnd s le_rfl).2.2.1 (hbnd s le_rfl).2.2.2
  have hinj : ∀ t1 t2 : Nat, t1 ≤ s + 1 → t2 ≤ s + 1 → t1 ≠ t2 →
      shiftIdx b dr dc t1 ≠ shiftIdx b dr dc t2 := fun t1 t2 ht1 ht2 hne =>
    shiftIdx_injOn b dr dc hdir hM t1 t2 (hbnd2 t1 ht1) (hbnd2 t2 ht2) hne
  refine ⟨hN, hMe, by rw [length_swapTiles]; exact hlc, by push_cast; ring,
    by push_cast; ring, hbnd2, ?_, ?_, ?_⟩
  · intro t ht
    rcases Nat.lt_or_ge t s with hts | hts
    · rw [getD_swapTiles _ _ _ _ hwlt hult,
        if_neg (hinj t s (by omega) (by omega) (by omega)),
        if_neg (hinj t (s + 1) (by omega) le_rfl (by omega))]
      exact hrun t hts
    · rw [show t = s by omega]
      rw [getD_swapTiles _ _ _ _ hwlt hult, if_pos rfl]
      have hwb : shiftIdx b dr dc (s + 1) < b.tiles.length := by rw [← hlc]; exact hwlt
      rw [hoth (shiftIdx b dr dc (s + 1)) hwb fun t2 ht2 =>
        hinj (s + 1) t2 le_rfl (by omega) (by omega)]
  · rw [getD_swapTiles _ _ _ _ hwlt hult,
      if_neg (hinj (s + 1) s le_rfl (by omega) (by omega)), if_pos rfl]
    exact hblank0
  · intro i hib hit
    rw [getD_swapTiles _ _ _ _ hwlt hult,
      if_neg (hit s (by omega)), if_neg (hit (s + 1) le_rfl)]
    exact hoth i hib fun t ht => hit t (by omega)

/-- Every board produced by the block-shift walk satisfies the shift
invariant at its position in the list. -/
theorem blockShiftWalk_spec (b : Board) (dr dc : Int) (hdir : IsDir dr dc)
    (hM : 1 ≤ b.M) (hlen : b.tiles.length = b.N * b.M) :
    ∀ (fuel s : Nat) (cur : Board), ShiftedBy b dr dc s cur →
      ∀ (j : Nat) (nb : Board),
        (blockShiftWalk b.N b.M dr dc fuel cur
          (b.empty_row + ((s : Int) + 1) * dr)
          (b.empty_col + ((s : Int) + 1) * dc)).get? j = some nb →
        ShiftedBy b dr dc (s + j + 1) nb := by
  intro fuel
  induction fuel with
  | zero =>
    intro s cur _ j nb h
    simp [blockShiftWalk] at h
  | succ f ih =>
    intro s cur hs j nb h
    rw [blockShiftWalk] at h
    by_cases hcond : 0 ≤ b.empty_row + ((s : Int) + 1) * dr ∧
        b.empty_row + ((s : Int) + 1) * dr < (b.N : Int) ∧
        0 ≤ b.empty_col + ((s : Int) + 1) * dc ∧
        b.empty_col + ((s : Int) + 1) * dc < (b.M : Int)
    · rw [if_pos hcond] at h
      have hti : ((b.empty_row + ((s : Int) + 1) * dr) * (b.M : Int) +
          (b.empty_col + ((s : Int) + 1) * dc)).toNat = shiftIdx b dr dc (s + 1) := by
        unfold shiftIdx
        congr 1
      have hpi : ((b.empty_row + ((s : Int) + 1) * dr - dr) * (b.M : Int) +
          (b.empty_col + ((s : Int) + 1) * dc - dc)).toNat = shiftIdx b dr dc s := by
        unfold shiftIdx
        congr 1
        ring
      rw [hti, hpi] at h
      have hstep := shiftedBy_step b dr dc hdir hM hlen s cur hs hcond
      cases j with
      | zero =>
        simp only [List.get?_cons_zero, Option.some.injEq] at h
        rw [← h]
        exact hstep
      | succ k =>
        simp only [List.get?_cons_succ] at h
        have harg1 : b.empty_row + ((s : Int) + 1) * dr + dr =
            b.empty_row + (((s + 1 : Nat) : Int) + 1) * dr := by push_cast; ring
        have harg2 : b.empty_col + ((s : Int) + 1) * dc + dc =
            b.empty_col + (((s + 1 : Nat) : Int) + 1) * dc := by push_cast; ring
        rw [harg1, harg2] at h
        have := ih (s + 1) _ hstep k nb h
        have hidx : s + 1 + k + 1 = s + (k + 1) + 1 := by omega
        rw [hidx] at this
        exact this
    · rw [if_neg hcond] at h
      simp at h

/-- Two distinct boards of the same direction walk differ in their tile
lists. -/
theorem shiftedBy_tiles_ne (b : Board) (dr dc : Int) (hdir : IsDir dr dc)
    (hval : BoardValid b)
    (hz : ∀ i, i < b.tiles.length → i ≠ blankIdx b → b.tiles.getD i 0 ≠ 0)
    (j k : Nat) (hjk : j < k) (nbj nbk : Board)
    (hj : ShiftedBy b dr dc (j + 1) nbj) (hk : ShiftedBy b dr dc (k + 1) nbk) :
    nbj.tiles ≠ nbk.tiles := by
  obtain ⟨hN, hM, hlen, her0, herN, hec0, hecM, hblank⟩ := hval
  intro heq
  have e1 : nbj.tiles.getD (shiftIdx b dr dc (j + 1)) 0 = 0 := by
    rw [hj.2.2.2.2.2.2.2.1, shiftIdx_zero]
    exact hblank
  have e2 : nbk.tiles.getD (shiftIdx b dr dc (j + 1)) 0 =
      b.tiles.getD (shiftIdx b dr dc (j + 2)) 0 := by
    have := hk.2.2.2.2.2.2.1 (j + 1) (by omega)
    simpa using this
  have hbnd := hk.2.2.2.2.2.1
  have hbj2 : shiftIdx b dr dc (j + 2) < b.tiles.length := by
    rw [hlen]
    exact toNat_cellIdx_lt (hbnd (j + 2) (by omega)).1 (hbnd (j + 2) (by omega)).2.1
      (hbnd (j + 2) (by omega)).2.2.1 (hbnd (j + 2) (by omega)).2.2.2
  have hne0 : b.tiles.getD (shiftIdx b dr dc (j + 2)) 0 ≠ 0 := by
    apply hz _ hbj2
    rw [← shiftIdx_zero b dr dc]
    exact shiftIdx_injOn b dr dc hdir hM (j + 2) 0
      (hbnd (j + 2) (by omega)) (hbnd 0 (by omega)) (by omega)
  rw [heq, e2] at e1
  exact hne0 e1

/-- Expansion only appends to the frontier, and every pushed state carries
g equal to the popped state's g plus one. -/
theorem foldl_relax_open_pushes (cur : State) :
    ∀ (nbs : List Board) (st : SolverState),
      ∃ pushed, (nbs.foldl (relaxNeighbor cur) st).open_set = st.open_set ++ pushed ∧
        ∀ sp ∈ pushed, sp.g_cost = cur.g_cost + 1 := by
  intro nbs
  induction nbs with
  | nil =>
    intro st
    exact ⟨[], by simp, by simp⟩
  | cons nb rest ih =>
    intro st
    obtain ⟨pushed, hp, hg⟩ := ih (relaxNeighbor cur st nb)
    have hstep : ∃ st0, (relaxNeighbor cur st nb).open_set = st.open_set ++ st0 ∧
        ∀ sp ∈ st0, sp.g_cost = cur.g_cost + 1 := by
      cases h : lookupA st.g_costs nb with
      | none =>
        refine ⟨[mkState nb (cur.g_cost + 1) nb.get_manhattan_distance], ?_, ?_⟩
        · simp only [relaxNeighbor, h]
        · intro sp hsp
          simp at hsp
          rw [hsp]
          rfl
      | some stored_g =>
        by_cases hlt : cur.g_cost + 1 < stored_g
        · refine ⟨[mkState nb (cur.g_cost + 1) nb.get_manhattan_distance], ?_, ?_⟩
          · simp only [relaxNeighbor, h, if_pos hlt]
          · intro sp hsp
            simp at hsp
            rw [hsp]
            rfl
        · refine ⟨[], ?_, by simp⟩
          simp only [relaxNeighbor, h, if_neg hlt, List.append_nil]
    obtain ⟨st0, h0, hg0⟩ := hstep
    rw [List.foldl_cons, hp, h0, List.append_assoc]
    refine ⟨st0 ++ pushed, rfl, ?_⟩
    intro sp hsp
    rcases List.mem_append.mp hsp with h | h
    · exact hg0 sp h
    · exact hg sp h

/-- Lower bound on the walk length: as long as consecutive cells stay in
bounds, the loop keeps producing successors. -/
theorem blockShiftWalk_length_ge (N M : Nat) (dr dc : Int) :
    ∀ (d fuel : Nat) (cur : Board) (r c : Int),
      (∀ t : Nat, t < d →
        0 ≤ r + (t : Int) * dr ∧ r + (t : Int) * dr < (N : Int) ∧
        0 ≤ c + (t : Int) * dc ∧ c + (t : Int) * dc < (M : Int)) →
      d ≤ fuel → d ≤ (blockShiftWalk N M dr dc fuel cur r c).length := by
  intro d
  induction d with
  | zero =>
    intro fuel cur r c _ _
    omega
  | succ d ih =>
    intro fuel cur r c hb hf
    obtain ⟨f, rfl⟩ : ∃ f, fuel = f + 1 := ⟨fuel - 1, by omega⟩
    have h0 := hb 0 (by omega)
    simp only [Nat.cast_zero, zero_mul, add_zero] at h0
    rw [blockShiftWalk, if_pos h0]
    simp only [List.length_cons]
    have hb2 : ∀ t : Nat, t < d →
        0 ≤ r + dr + (t : Int) * dr ∧ r + dr + (t : Int) * dr < (N : Int) ∧
        0 ≤ c + dc + (t : Int) * dc ∧ c + dc + (t : Int) * dc < (M : Int) := by
      intro t ht
      have h1 := hb (t + 1) (by omega)
      push_cast at h1 ⊢
      refine ⟨?_, ?_, ?_, ?_⟩
      · calc (0 : Int) ≤ r + ((t : Int) + 1) * dr := h1.1
          _ = r + dr + (t : Int) * dr := by ring
      · calc r + dr + (t : Int) * dr = r + ((t : Int) + 1) * dr := by ring
          _ < (N : Int) := h1.2.1
      · calc (0 : Int) ≤ c + ((t : Int) + 1) * dc := h1.2.2.1
          _ = c + dc + (t : Int) * dc := by ring
      · calc c + dc + (t : Int) * dc = c + ((t : Int) + 1) * dc := by ring
          _ < (M : Int) := h1.2.2.2
    exact Nat.succ_le_succ (ih f _ (r + dr) (c + dc) hb2 (by omega))

/-- Claim C3: along each of the four directions, the j-th board of the
block-shift walk is the board in which the run of j+1 tiles between the
original blank and distance j+1 has shifted one cell toward the original
blank and the blank sits at distance j+1; boards at different positions of
one direction walk have different tile lists; and during expansion every
state pushed to the frontier carries g_cost equal to the popped state's
g_cost plus one (each successor is one unit-cost move). -/
theorem blockShift_successor_structure (b : Board) (hval : BoardValid b)
    (hz : ∀ i, i < b.tiles.length → i ≠ blankIdx b → b.tiles.getD i 0 ≠ 0)
    (dr dc : Int) (hdir : IsDir dr dc) :
    (∀ (j : Nat) (nb : Board),
      (blockShiftWalk b.N b.M dr dc (b.N + b.M) b
        (b.empty_row + dr) (b.empty_col + dc)).get? j = some nb →
      ShiftedBy b dr dc (j + 1) nb) ∧
    (∀ (j k : Nat) (nbj nbk : Board), j ≠ k →
      (blockShiftWalk b.N b.M dr dc (b.N + b.M) b
        (b.empty_row + dr) (b.empty_col + dc)).get? j = some nbj →
      (blockShiftWalk b.N b.M dr dc (b.N + b.M) b
        (b.empty_row + dr) (b.empty_col + dc)).get? k = some nbk →
      nbj.tiles ≠ nbk.tiles) ∧
    (∀ (ty : SolveType) (st : SolverState) (cur : State),
      ∃ pushed, ((neighborsFor ty cur.board).foldl (relaxNeighbor cur) st).open_set =
          st.open_set ++ pushed ∧
        ∀ sp ∈ pushed, sp.g_cost = cur.g_cost + 1) ∧
    (∀ d : Nat,
      (∀ t : Nat, 1 ≤ t → t ≤ d →
        0 ≤ b.empty_row + (t : Int) * dr ∧ b.empty_row + (t : Int) * dr < (b.N : Int) ∧
        0 ≤ b.empty_col + (t : Int) * dc ∧ b.empty_col + (t : Int) * dc < (b.M : Int)) →
      d ≤ (blockShiftWalk b.N b.M dr dc (b.N + b.M) b
        (b.empty_row + dr) (b.empty_col + dc)).length) := by
  have hM : 1 ≤ b.M := hval.2.1
  have hlen : b.tiles.length = b.N * b.M := hval.2.2.1
  have hmain : ∀ (j : Nat) (nb : Board),
      (blockShiftWalk b.N b.M dr dc (b.N + b.M) b
        (b.empty_row + dr) (b.empty_col + dc)).get? j = some nb →
      ShiftedBy b dr dc (j + 1) nb := by
    intro j nb h
    have harg1 : b.empty_row + dr = b.empty_row + (((0 : Nat) : Int) + 1) * dr := by
      push_cast; ring
    have harg2 : b.empty_col + dc = b.empty_col + (((0 : Nat) : Int) + 1) * dc := by
      push_cast; ring
    rw [harg1, harg2] at h
    have := blockShiftWalk_spec b dr dc hdir hM hlen (b.N + b.M) 0 b
      (shiftedBy_zero b dr dc hval) j nb h
    simpa using this
  refine ⟨hmain, ?_, ?_, ?_⟩
  · intro j k nbj nbk hne hj hk
    rcases Nat.lt_or_ge j k with h | h
    · exact shiftedBy_tiles_ne b dr dc hdir hval hz j k h nbj nbk (hmain j nbj hj)
        (hmain k nbk hk)
    · have hkj : k < j := by omega
      exact Ne.symm (shiftedBy_tiles_ne b dr dc hdir hval hz k j hkj nbk nbj
        (hmain k nbk hk) (hmain j nbj hj))
  · intro ty st cur
    exact foldl_relax_open_pushes cur (neighborsFor ty cur.board) st
  · intro d hd
    have hb2 : ∀ t : Nat, t < d →
        0 ≤ b.empty_row + dr + (t : Int) * dr ∧
        b.empty_row + dr + (t : Int) * dr < (b.N : Int) ∧
        0 ≤ b.empty_col + dc + (t : Int) * dc ∧
        b.empty_col + dc + (t : Int) * dc < (b.M : Int) := by
      intro t ht
      have h1 := hd (t + 1) (by omega) (by omega)
      push_cast at h1 ⊢
      refine ⟨?_, ?_, ?_, ?_⟩
      · calc (0 : Int) ≤ b.empty_row + ((t : Int) + 1) * dr := h1.1
          _ = b.empty_row + dr + (t : Int) * dr := by ring
      · calc b.empty_row + dr + (t : Int) * dr = b.empty_row + ((t : Int) + 1) * dr := by ring
          _ < (b.N : Int) := h1.2.1
      · calc (0 : Int) ≤ b.empty_col + ((t : Int) + 1) * dc := h1.2.2.1
          _ = b.empty_col + dc + (t : Int) * dc := by ring
      · calc b.empty_col + dc + (t : Int) * dc = b.empty_col + ((t : Int) + 1) * dc := by ring
          _ < (b.M : Int) := h1.2.2.2
    apply blockShiftWalk_length_ge b.N b.M dr dc d (b.N + b.M) b
      (b.empty_row + dr) (b.empty_col + dc) hb2
    by_cases hdz : d = 0
    · omega
    · have hdd := hd d (by omega) le_rfl
      have hN1 : 1 ≤ b.N := hval.1
      have her0 : 0 ≤ b.empty_row := hval.2.2.2.1
      have herN : b.empty_row < (b.N : Int) := hval.2.2.2.2.1
      have hec0 : 0 ≤ b.empty_col := hval.2.2.2.2.2.1
      have hecM : b.empty_col < (b.M : Int) := hval.2.2.2.2.2.2.1
      rcases hdir with ⟨rfl, rfl⟩ | ⟨rfl, rfl⟩ | ⟨rfl, rfl⟩ | ⟨rfl, rfl⟩ <;>
        · simp only [mul_neg_one, mul_one, mul_zero, add_zero, ← sub_eq_add_neg] at hdd
          omega

/-- Witness for claim C3 at a concrete 1-by-3 board walking rightward. -/
theorem blockShift_successor_structure_witness :
    (BoardValid (mkBoard 1 3 [1, 0, 2]) ∧
      (∀ i, i < (mkBoard 1 3 [1, 0, 2]).tiles.length →
        i ≠ blankIdx (mkBoard 1 3 [1, 0, 2]) →
        (mkBoard 1 3 [1, 0, 2]).tiles.getD i 0 ≠ 0) ∧
      IsDir 0 1) ∧
    ((∀ (j : Nat) (nb : Board),
      (blockShiftWalk (mkBoard 1 3 [1, 0, 2]).N (mkBoard 1 3 [1, 0, 2]).M 0 1
        ((mkBoard 1 3 [1, 0, 2]).N + (mkBoard 1 3 [1, 0, 2]).M) (mkBoard 1 3 [1, 0, 2])
        ((mkBoard 1 3 [1, 0, 2]).empty_row + 0)
        ((mkBoard 1 3 [1, 0, 2]).empty_col + 1)).get? j = some nb →
      ShiftedBy (mkBoard 1 3 [1, 0, 2]) 0 1 (j + 1) nb) ∧
    (∀ (j k : Nat) (nbj nbk : Board), j ≠ k →
      (blockShiftWalk (mkBoard 1 3 [1, 0, 2]).N (mkBoard 1 3 [1, 0, 2]).M 0 1
        ((mkBoard 1 3 [1, 0, 2]).N + (mkBoard 1 3 [1, 0, 2]).M) (mkBoard 1 3 [1, 0, 2])
        ((mkBoard 1 3 [1, 0, 2]).empty_row + 0)
        ((mkBoard 1 3 [1, 0, 2]).empty_col + 1)).get? j = some nbj →
      (blockShiftWalk (mkBoard 1 3 [1, 0, 2]).N (mkBoard 1 3 [1, 0, 2]).M 0 1
        ((mkBoard 1 3 [1, 0, 2]).N + (mkBoard 1 3 [1, 0, 2]).M) (mkBoard 1 3 [1, 0, 2])
        ((mkBoard 1 3 [1, 0, 2]).empty_row + 0)
        ((mkBoard 1 3 [1, 0, 2]).empty_col + 1)).get? k = some nbk →
      nbj.tiles ≠ nbk.tiles) ∧
    (∀ (ty : SolveType) (st : SolverState) (cur : State),
      ∃ pushed, ((neighborsFor ty cur.board).foldl (relaxNeighbor cur) st).open_set =
          st.open_set ++ pushed ∧
        ∀ sp ∈ pushed, sp.g_cost = cur.g_cost + 1) ∧
    (∀ d : Nat,
      (∀ t : Nat, 1 ≤ t → t ≤ d →
        0 ≤ (mkBoard 1 3 [1, 0, 2]).empty_row + (t : Int) * 0 ∧
        (mkBoard 1 3 [1, 0, 2]).empty_row + (t : Int) * 0 < ((mkBoard 1 3 [1, 0, 2]).N : Int) ∧
        0 ≤ (mkBoard 1 3 [1, 0, 2]).empty_col + (t : Int) * 1 ∧
        (mkBoard 1 3 [1, 0, 2]).empty_col + (t : Int) * 1 < ((mkBoard 1 3 [1, 0, 2]).M : Int)) →
      d ≤ (blockShiftWalk (mkBoard 1 3 [1, 0, 2]).N (mkBoard 1 3 [1, 0, 2]).M 0 1
        ((mkBoard 1 3 [1, 0, 2]).N + (mkBoard 1 3 [1, 0, 2]).M) (mkBoard 1 3 [1, 0, 2])
        ((mkBoard 1 3 [1, 0, 2]).empty_row + 0)
        ((mkBoard 1 3 [1, 0, 2]).empty_col + 1)).length)) :=
  ⟨⟨by decide, by decide, by decide⟩,
    blockShift_successor_structure (mkBoard 1 3 [1, 0, 2]) (by decide) (by decide) 0 1
      (by decide)⟩

/-- Claim C5: in an iteration (with the time budget not yet elapsed) whose
popped state finds a strictly smaller best-known g in the cost table, the
state is discarded: the frontier, both maps, the solution collector and the
stop flag are unchanged and only the explored-state counter is incremented;
the iteration takes one of the two discard branches (the pruning discard,
checked first in source order, or the staleness discard). -/
theorem stale_pop_discarded (type : SolveType) (K : Nat) (initial : Board)
    (fuel : Nat) (st : SolverState) (current : State) (stored_g : Nat)
    (hg : lookupA st.g_costs current.board = some stored_g)
    (hlt : stored_g < current.g_cost) :
    (workerIter type K initial fuel false st current).1 =
      { st with states_explored := st.states_explored + 1 } ∧
    ((workerIter type K initial fuel false st current).2 = IterResult.stale ∨
      (workerIter type K initial fuel false st current).2 = IterResult.pruned) := by
  unfold workerIter
  simp only [Bool.false_eq_true, if_false, hg]
  split_ifs <;>
    first
      | exact ⟨rfl, Or.inr rfl⟩
      | exact ⟨rfl, Or.inl rfl⟩
      | simp_all

/-- Witness for claim C5 at a concrete state whose table already holds a
cheaper g for the popped board. -/
theorem stale_pop_discarded_witness :
    (lookupA ({ open_set := [], g_costs := [(mkBoard 1 2 [0, 1], 1)], came_from := [],
                found_solutions := [], terminate_search := false,
                states_explored := 0 } : SolverState).g_costs
        (mkState (mkBoard 1 2 [0, 1]) 3 1).board = some 1 ∧ 1 < 3) ∧
    ((workerIter SolveType.AdjacentSwap 1 (mkBoard 1 2 [1, 0]) 5 false
        { open_set := [], g_costs := [(mkBoard 1 2 [0, 1], 1)], came_from := [],
          found_solutions := [], terminate_search := false, states_explored := 0 }
        (mkState (mkBoard 1 2 [0, 1]) 3 1)).1 =
      { open_set := [], g_costs := [(mkBoard 1 2 [0, 1], 1)], came_from := [],
        found_solutions := [], terminate_search := false, states_explored := 1 } ∧
     ((workerIter SolveType.AdjacentSwap 1 (mkBoard 1 2 [1, 0]) 5 false
        { open_set := [], g_costs := [(mkBoard 1 2 [0, 1], 1)], came_from := [],
          found_solutions := [], terminate_search := false, states_explored := 0 }
        (mkState (mkBoard 1 2 [0, 1]) 3 1)).2 = IterResult.stale ∨
      (workerIter SolveType.AdjacentSwap 1 (mkBoard 1 2 [1, 0]) 5 false
        { open_set := [], g_costs := [(mkBoard 1 2 [0, 1], 1)], came_from := [],
          found_solutions := [], terminate_search := false, states_explored := 0 }
        (mkState (mkBoard 1 2 [0, 1]) 3 1)).2 = IterResult.pruned)) :=
  ⟨⟨by decide, by decide⟩,
    stale_pop_discarded SolveType.AdjacentSwap 1 (mkBoard 1 2 [1, 0]) 5 _ _ 1
      (by decide) (by decide)⟩

/-- Claim C8: with the time budget not elapsed, if the collector holds at
least K solutions and the popped f_cost is at least the K-th best collected
cost, the iteration discards the state (all solver state unchanged except
the explored counter, branch = pruned); with fewer than K solutions held the
pruning branch is never taken. -/
theorem prune_behavior (type : SolveType) (K : Nat) (initial : Board)
    (fuel : Nat) (st : SolverState) (current : State) (c : Solution) :
    (K ≤ st.found_solutions.length →
      st.found_solutions.get? (K - 1) = some c →
      c.cost ≤ current.f_cost →
      (workerIter type K initial fuel false st current).1 =
          { st with states_explored := st.states_explored + 1 } ∧
        (workerIter type K initial fuel false st current).2 = IterResult.pruned) ∧
    (st.found_solutions.length < K →
      (workerIter type K initial fuel false st current).2 ≠ IterResult.pruned) := by
  constructor
  · intro hK hc hf
    unfold workerIter
    simp only [Bool.false_eq_true, if_false, if_pos hK, hc]
    split_ifs with hp <;>
      first
        | exact ⟨rfl, rfl⟩
        | exact absurd ⟨by simp, by exact_mod_cast hf⟩ hp
  · intro hK
    unfold workerIter
    simp only [Bool.false_eq_true, if_false,
      if_neg (by omega : ¬ K ≤ st.found_solutions.length)]
    rw [if_neg (by simp)]
    split_ifs with h1 h2 <;> simp

/-- Witness for claim C8: a collector already holding one solution of cost 2
prunes a popped state with f_cost 2 when K = 1, and an empty collector never
prunes. -/
theorem prune_behavior_witness :
    (1 ≤ ([{ cost := 2, path := [mkBoard 1 2 [1, 0]] }] : List Solution).length ∧
      ([{ cost := 2, path := [mkBoard 1 2 [1, 0]] }] : List Solution).get? 0 =
        some { cost := 2, path := [mkBoard 1 2 [1, 0]] } ∧
      ({ cost := 2, path := [mkBoard 1 2 [1, 0]] } : Solution).cost ≤
        (mkState (mkBoard 1 2 [0, 1]) 1 1).f_cost) ∧
    ((workerIter SolveType.AdjacentSwap 1 (mkBoard 1 2 [1, 0]) 5 false
        { open_set := [], g_costs := [], came_from := [],
          found_solutions := [{ cost := 2, path := [mkBoard 1 2 [1, 0]] }],
          terminate_search := false, states_explored := 0 }
        (mkState (mkBoard 1 2 [0, 1]) 1 1)).1 =
      { open_set := [], g_costs := [], came_from := [],
        found_solutions := [{ cost := 2, path := [mkBoard 1 2 [1, 0]] }],
        terminate_search := false, states_explored := 1 } ∧
      (workerIter SolveType.AdjacentSwap 1 (mkBoard 1 2 [1, 0]) 5 false
        { open_set := [], g_costs := [], came_from := [],
          found_solutions := [{ cost := 2, path := [mkBoard 1 2 [1, 0]] }],
          terminate_search := false, states_explored := 0 }
        (mkState (mkBoard 1 2 [0, 1]) 1 1)).2 = IterResult.pruned) :=
  ⟨⟨by decide, by decide, by decide⟩,
    (prune_behavior SolveType.AdjacentSwap 1 (mkBoard 1 2 [1, 0]) 5
        { open_set := [], g_costs := [], came_from := [],
          found_solutions := [{ cost := 2, path := [mkBoard 1 2 [1, 0]] }],
          terminate_search := false, states_explored := 0 }
        (mkState (mkBoard 1 2 [0, 1]) 1 1)
        { cost := 2, path := [mkBoard 1 2 [1, 0]] }).1
      (by decide) (by decide) (by decide)⟩

/-- Key equality is tile-list equality. -/
theorem keyEq_iff (a b : Board) : boardKeyEq a b = true ↔ a.tiles = b.tiles := by
  unfold boardKeyEq
  exact beq_iff_eq

/-- Key-equal boards compare equally against any key. -/
theorem keyEq_congr (k : Board) {a b : Board} (h : boardKeyEq a b = true) :
    boardKeyEq k a = boardKeyEq k b := by
  unfold boardKeyEq
  rw [(keyEq_iff a b).mp h]

/-- Lookup in a concatenation: the first list wins. -/
theorem lookupA_append {α : Type} (l1 l2 : List (Board × α)) (b : Board) :
    lookupA (l1 ++ l2) b =
      match lookupA l1 b with
      | some v => some v
      | none => lookupA l2 b := by
  induction l1 with
  | nil => simp [lookupA]
  | cons kv rest ih =>
    obtain ⟨k, v⟩ := kv
    by_cases h : boardKeyEq k b
    · simp [lookupA, h]
    · simp [lookupA, h, ih]

/-- Lookup respects key equality. -/
theorem lookupA_congr {α : Type} (l : List (Board × α)) {a b : Board}
    (h : boardKeyEq a b = true) : lookupA l a = lookupA l b := by
  induction l with
  | nil => rfl
  | cons kv rest ih =>
    obtain ⟨k, v⟩ := kv
    simp only [lookupA, keyEq_congr k h, ih]

/-- Storing under a key updates the value found for any key-equal board. -/
theorem lookupA_storeA_eq {α : Type} (l : List (Board × α)) (k b : Board) (x : α)
    (h : boardKeyEq k b = true) : lookupA (storeA l k x) b = some x := by
  induction l with
  | nil => simp [storeA, lookupA, h]
  | cons kv rest ih =>
    obtain ⟨k0, w⟩ := kv
    by_cases h0 : boardKeyEq k0 k
    · have hk0b : boardKeyEq k0 b = true := by
        rw [keyEq_iff] at h h0 ⊢
        rw [h0, h]
      simp [storeA, h0, lookupA, hk0b]
    · have hk0b : boardKeyEq k0 b = false := by
        rw [Bool.eq_false_iff]
        intro hk
        rw [keyEq_iff] at h hk
        exact h0 (by rw [keyEq_iff, hk, h])
      simp [storeA, h0, lookupA, hk0b, ih]

/-- Storing under a key leaves lookups of key-different boards unchanged. -/
theorem lookupA_storeA_ne {α : Type} (l : List (Board × α)) (k b : Board) (x : α)
    (h : boardKeyEq k b = false) : lookupA (storeA l k x) b = lookupA l b := by
  induction l with
  | nil => simp [storeA, lookupA, h]
  | cons kv rest ih =>
    obtain ⟨k0, w⟩ := kv
    by_cases h0 : boardKeyEq k0 k
    · have hk0b : boardKeyEq k0 b = false := by
        rw [Bool.eq_false_iff] at h ⊢
        intro hk
        rw [keyEq_iff] at h0 hk
        exact h (by rw [keyEq_iff, ← h0, hk])
      simp [storeA, h0, lookupA, hk0b]
    · simp [storeA, h0, lookupA, ih]

/-- Effect of relaxing one neighbor on the stored (g, parent) pair of an
arbitrary key already present in the table: either both lookups are
untouched, or g strictly decreases and the parent is set to the expanding
board in the same step. -/
theorem relax_g_step (cur : State) (st : SolverState) (nb b : Board) (v : Nat)
    (hv : lookupA st.g_costs b = some v) :
    (lookupA (relaxNeighbor cur st nb).g_costs b = some v ∧
      lookupA (relaxNeighbor cur st nb).came_from b = lookupA st.came_from b) ∨
    (∃ v2, lookupA (relaxNeighbor cur st nb).g_costs b = some v2 ∧ v2 < v ∧
      lookupA (relaxNeighbor cur st nb).came_from b = some cur.board) := by
  cases hnb : lookupA st.g_costs nb with
  | none =>
    left
    have hkey : boardKeyEq nb b = false := by
      rw [Bool.eq_false_iff]
      intro hk
      rw [lookupA_congr st.g_costs hk, hv] at hnb
      exact Option.noConfusion hnb
    constructor
    · simp only [relaxNeighbor, hnb, lookupA_append, hv]
    · simp only [relaxNeighbor, hnb]
      unfold emplaceA
      cases lookupA st.came_from nb with
      | some p => rfl
      | none =>
        rw [lookupA_append]
        cases hcf : lookupA st.came_from b with
        | some p => rfl
        | none => simp [lookupA, hkey]
  | some stored =>
    by_cases hlt : cur.g_cost + 1 < stored
    · by_cases hkey : boardKeyEq nb b = true
      · right
        have hsv : stored = v := by
          rw [lookupA_congr st.g_costs hkey, hv] at hnb
          exact (Option.some.injEq _ _ ▸ hnb).symm ▸ rfl
        refine ⟨cur.g_cost + 1, ?_, by omega, ?_⟩
        · simp only [relaxNeighbor, hnb, if_pos hlt]
          exact lookupA_storeA_eq _ _ _ _ hkey
        · simp only [relaxNeighbor, hnb, if_pos hlt]
          exact lookupA_storeA_eq _ _ _ _ hkey
      · left
        have hkey' : boardKeyEq nb b = false := by
          rw [Bool.eq_false_iff]
          exact hkey
        constructor
        · simp only [relaxNeighbor, hnb, if_pos hlt]
          rw [lookupA_storeA_ne _ _ _ _ hkey']
          exact hv
        · simp only [relaxNeighbor, hnb, if_pos hlt]
          exact lookupA_storeA_ne _ _ _ _ hkey'
    · left
      simp only [relaxNeighbor, hnb, if_neg hlt]
      exact ⟨hv, trivial⟩

/-- Effect of the whole expansion fold on the stored (g, parent) pair of an
arbitrary key: g never increases; if it decreased, the stored parent is the
expanding board; if it stayed, the stored parent is untouched. -/
theorem foldl_relax_g_mono (cur : State) :
    ∀ (nbs : List Board) (st : SolverState) (b : Board) (v : Nat),
      lookupA st.g_costs b = some v →
      ∃ v2, lookupA (nbs.foldl (relaxNeighbor cur) st).g_costs b = some v2 ∧ v2 ≤ v ∧
        (v2 < v → lookupA (nbs.foldl (relaxNeighbor cur) st).came_from b = some cur.board) ∧
        (v2 = v → lookupA (nbs.foldl (relaxNeighbor cur) st).came_from b =
          lookupA st.came_from b) := by
  intro nbs
  induction nbs with
  | nil =>
    intro st b v hv
    exact ⟨v, hv, le_rfl, fun h => absurd h (lt_irrefl v), fun _ => rfl⟩
  | cons nb rest ih =>
    intro st b v hv
    rw [List.foldl_cons]
    rcases relax_g_step cur st nb b v hv with ⟨h1, h2⟩ | ⟨v2, h1, h2, h3⟩
    · obtain ⟨v3, hg, hle, hcf, hsame⟩ := ih (relaxNeighbor cur st nb) b v h1
      exact ⟨v3, hg, hle, hcf, fun he => by rw [hsame he, h2]⟩
    · obtain ⟨v3, hg, hle, hcf, hsame⟩ := ih (relaxNeighbor cur st nb) b v2 h1
      refine ⟨v3, hg, by omega, fun _ => ?_, fun he => by omega⟩
      rcases Nat.lt_or_ge v3 v2 with h | h
      · exact hcf h
      · have : v3 = v2 := by omega
        rw [hsame this, h3]

/-- Claim C4: over one worker iteration, the g stored in the cost table for
any key only decreases, an update is applied only when the newly computed g
is strictly smaller, and whenever the stored g did decrease the parent entry
for that key was updated in the same step to the board whose expansion
achieved the smaller g, so the stored parent is never stale relative to the
stored g. -/
theorem cost_table_monotone (type : SolveType) (K : Nat) (initial : Board)
    (fuel : Nat) (timeoutNow : Bool) (st : SolverState) (current : State)
    (b : Board) (v : Nat) (hv : lookupA st.g_costs b = some v) :
    ∃ v2, lookupA (workerIter type K initial fuel timeoutNow st current).1.g_costs b =
        some v2 ∧ v2 ≤ v ∧
      (v2 < v →
        lookupA (workerIter type K initial fuel timeoutNow st current).1.came_from b =
          some current.board) := by
  simp only [workerIter]
  split_ifs <;>
    first
      | exact ⟨v, hv, le_rfl, fun h => absurd h (lt_irrefl v)⟩
      | (obtain ⟨v2, hg, hle, hcf, _⟩ := foldl_relax_g_mono current
          (neighborsFor type current.board)
          { st with states_explored := st.states_explored + 1 } b v hv
         exact ⟨v2, hg, hle, hcf⟩)

/-- Witness for claim C4: expanding the 1-by-3 board [1,0,2] with the table
holding g = 5 for its neighbor [0,1,2] rewrites that entry to a smaller g
together with the parent. -/
theorem cost_table_monotone_witness :
    lookupA ({ open_set := [], g_costs := [(mkBoard 1 3 [0, 1, 2], 5)], came_from := [],
               found_solutions := [], terminate_search := false,
               states_explored := 0 } : SolverState).g_costs (mkBoard 1 3 [0, 1, 2]) =
      some 5 ∧
    (∃ v2, lookupA (workerIter SolveType.AdjacentSwap 1 (mkBoard 1 3 [1, 2, 0]) 5 false
        { open_set := [], g_costs := [(mkBoard 1 3 [0, 1, 2], 5)], came_from := [],
          found_solutions := [], terminate_search := false, states_explored := 0 }
        (mkState (mkBoard 1 3 [1, 0, 2]) 0 2)).1.g_costs (mkBoard 1 3 [0, 1, 2]) =
          some v2 ∧ v2 ≤ 5 ∧
      (v2 < 5 →
        lookupA (workerIter SolveType.AdjacentSwap 1 (mkBoard 1 3 [1, 2, 0]) 5 false
          { open_set := [], g_costs := [(mkBoard 1 3 [0, 1, 2], 5)], came_from := [],
            found_solutions := [], terminate_search := false, states_explored := 0 }
          (mkState (mkBoard 1 3 [1, 0, 2]) 0 2)).1.came_from (mkBoard 1 3 [0, 1, 2]) =
            some (mkState (mkBoard 1 3 [1, 0, 2]) 0 2).board)) :=
  ⟨by decide,
    cost_table_monotone SolveType.AdjacentSwap 1 (mkBoard 1 3 [1, 2, 0]) 5 false
      { open_set := [], g_costs := [(mkBoard 1 3 [0, 1, 2], 5)], came_from := [],
        found_solutions := [], terminate_search := false, states_explored := 0 }
      (mkState (mkBoard 1 3 [1, 0, 2]) 0 2) (mkBoard 1 3 [0, 1, 2]) 5 (by decide)⟩

/-- The backward walk succeeds within any fuel strictly larger than the
chain length, appending the visited boards (goal first) to the accumulator. -/
theorem reconstructWalk_of_chainEnds (cf : List (Board × Board)) (initial : Board)
    (cur : Board) (k : Nat) (hch : ChainEnds cf initial cur k) :
    ∀ (fuel : Nat), k < fuel → ∀ (acc : List Board),
      ∃ tail, reconstructWalk cf initial fuel cur acc = some (acc ++ tail) ∧
        (tail = [] ∨ tail.head? = some cur) := by
  induction hch with
  | reached cur h =>
    intro fuel hf acc
    obtain ⟨f, rfl⟩ : ∃ f, fuel = f + 1 := ⟨fuel - 1, by omega⟩
    refine ⟨[], ?_, Or.inl rfl⟩
    rw [reconstructWalk, if_pos h, List.append_nil]
  | missing cur h hl =>
    intro fuel hf acc
    obtain ⟨f, rfl⟩ : ∃ f, fuel = f + 1 := ⟨fuel - 1, by omega⟩
    refine ⟨[cur], ?_, Or.inr rfl⟩
    rw [reconstructWalk, if_neg (by simp [h]), hl]
  | step cur parent k h hl hch ih =>
    intro fuel hf acc
    obtain ⟨f, rfl⟩ : ∃ f, fuel = f + 1 := ⟨fuel - 1, by omega⟩
    rw [reconstructWalk, if_neg (by simp [h]), hl]
    obtain ⟨tail2, hw, _⟩ := ih f (by omega) (acc ++ [cur])
    refine ⟨cur :: tail2, ?_, Or.inr rfl⟩
    show reconstructWalk cf initial f parent (acc ++ [cur]) = some (acc ++ cur :: tail2)
    rw [hw, List.append_assoc, List.singleton_append]

/-- Amended claim C6: whenever the backward chain from the goal reaches the
initial board or a board with no parent entry after finitely many steps,
reconstruct_path terminates, and its result runs from the initial board to
the goal board (or is the single initial board when the goal equals it by
tile comparison): the accumulated backward sequence is reversed. -/
theorem reconstruct_path_terminates (cf : List (Board × Board))
    (goal_board initial : Board) (k : Nat)
    (hch : ChainEnds cf initial goal_board k) (fuel : Nat) (hf : k < fuel) :
    ∃ res, reconstruct_path cf goal_board initial fuel = some res ∧
      res.head? = some initial ∧
      (res = [initial] ∨ res.getLast? = some goal_board) := by
  obtain ⟨tail, hw, hh⟩ :=
    reconstructWalk_of_chainEnds cf initial goal_board k hch fuel hf []
  rw [List.nil_append] at hw
  unfold reconstruct_path
  rw [hw]
  refine ⟨(tail ++ [initial]).reverse, rfl, ?_, ?_⟩
  · rw [List.head?_reverse, List.getLast?_concat]
  · rcases hh with rfl | hh
    · left
      simp
    · right
      rw [List.getLast?_reverse]
      cases tail with
      | nil => exact Option.noConfusion hh
      | cons c t =>
        simp only [List.cons_append, List.head?_cons] at hh ⊢
        exact hh

/-- Witness for the amended claim C6 on a one-step parent chain. -/
theorem reconstruct_path_terminates_witness :
    (ChainEnds [(mkBoard 1 3 [1, 0, 2], mkBoard 1 3 [0, 1, 2])] (mkBoard 1 3 [0, 1, 2])
        (mkBoard 1 3 [1, 0, 2]) 1 ∧ 1 < 3) ∧
    (∃ res, reconstruct_path [(mkBoard 1 3 [1, 0, 2], mkBoard 1 3 [0, 1, 2])]
        (mkBoard 1 3 [1, 0, 2]) (mkBoard 1 3 [0, 1, 2]) 3 = some res ∧
      res.head? = some (mkBoard 1 3 [0, 1, 2]) ∧
      (res = [mkBoard 1 3 [0, 1, 2]] ∨ res.getLast? = some (mkBoard 1 3 [1, 0, 2]))) :=
  ⟨⟨ChainEnds.step _ (mkBoard 1 3 [0, 1, 2]) 0 (by decide) (by decide)
      (ChainEnds.reached _ (by decide)), by decide⟩,
    reconstruct_path_terminates [(mkBoard 1 3 [1, 0, 2], mkBoard 1 3 [0, 1, 2])]
      (mkBoard 1 3 [1, 0, 2]) (mkBoard 1 3 [0, 1, 2]) 1
      (ChainEnds.step _ (mkBoard 1 3 [0, 1, 2]) 0 (by decide) (by decide)
        (ChainEnds.reached _ (by decide))) 3 (by decide)⟩

/-- On a cyclic parent map the backward walk runs out of any fuel: it never
terminates. -/
theorem reconstructWalk_cycle (fuel : Nat) :
    ∀ (cur : Board), (cur = mkBoard 1 3 [0, 1, 2] ∨ cur = mkBoard 1 3 [1, 0, 2]) →
      ∀ (acc : List Board),
      reconstructWalk [(mkBoard 1 3 [0, 1, 2], mkBoard 1 3 [1, 0, 2]),
          (mkBoard 1 3 [1, 0, 2], mkBoard 1 3 [0, 1, 2])]
        (mkBoard 1 3 [1, 2, 0]) fuel cur acc = none := by
  induction fuel with
  | zero =>
    intro cur _ acc
    rfl
  | succ f ih =>
    intro cur h acc
    rcases h with rfl | rfl
    · rw [reconstructWalk, if_neg (by decide),
        show lookupA [(mkBoard 1 3 [0, 1, 2], mkBoard 1 3 [1, 0, 2]),
            (mkBoard 1 3 [1, 0, 2], mkBoard 1 3 [0, 1, 2])] (mkBoard 1 3 [0, 1, 2]) =
          some (mkBoard 1 3 [1, 0, 2]) by decide]
      exact ih _ (Or.inr rfl) _
    · rw [reconstructWalk, if_neg (by decide),
        show lookupA [(mkBoard 1 3 [0, 1, 2], mkBoard 1 3 [1, 0, 2]),
            (mkBoard 1 3 [1, 0, 2], mkBoard 1 3 [0, 1, 2])] (mkBoard 1 3 [1, 0, 2]) =
          some (mkBoard 1 3 [0, 1, 2]) by decide]
      exact ih _ (Or.inl rfl) _

/-- Counterexample to claim C6 as stated: on the two-element cyclic parent
map whose chain never reaches the initial board and never breaks,
reconstruct_path does not terminate for any amount of fuel. -/
theorem reconstruct_path_cycle_diverges :
    ¬ ∃ (fuel : Nat) (res : List Board),
      reconstruct_path [(mkBoard 1 3 [0, 1, 2], mkBoard 1 3 [1, 0, 2]),
          (mkBoard 1 3 [1, 0, 2], mkBoard 1 3 [0, 1, 2])]
        (mkBoard 1 3 [0, 1, 2]) (mkBoard 1 3 [1, 2, 0]) fuel = some res := by
  rintro ⟨fuel, res, h⟩
  unfold reconstruct_path at h
  rw [reconstructWalk_cycle fuel _ (Or.inl rfl) []] at h
  exact Option.noConfusion h

/-- A strict lexicographic list comparison is irreflexive when the element
comparison is. -/
theorem listLtBy_irrefl {α : Type} (lt : α → α → Bool)
    (hirr : ∀ a, lt a a = false) : ∀ l, listLtBy lt l l = false := by
  intro l
  induction l with
  | nil => rfl
  | cons a as ih => simp [listLtBy, hirr a, ih]

/-- A strict lexicographic list comparison is transitive when the element
comparison is transitive and incomparable elements compare identically
against everything. -/
theorem listLtBy_trans {α : Type} (lt : α → α → Bool)
    (htr : ∀ a b c, lt a b = true → lt b c = true → lt a c = true)
    (hcg : ∀ a b, lt a b = false → lt b a = false →
      ∀ z, lt a z = lt b z ∧ lt z a = lt z b) :
    ∀ l1 l2 l3, listLtBy lt l1 l2 = true → listLtBy lt l2 l3 = true →
      listLtBy lt l1 l3 = true := by
  intro l1
  induction l1 with
  | nil =>
    intro l2 l3 h12 h23
    cases l3 with
    | nil =>
      cases l2 with
      | nil => simp [listLtBy] at h12
      | cons b bs => simp [listLtBy] at h23
    | cons c cs => rfl
  | cons a as ih =>
    intro l2 l3 h12 h23
    cases l2 with
    | nil => simp [listLtBy] at h12
    | cons b bs =>
      cases l3 with
      | nil => simp [listLtBy] at h23
      | cons c cs =>
        unfold listLtBy at h12 h23 ⊢
        by_cases hab : lt a b = true
        · by_cases hbc : lt b c = true
          · rw [if_pos (htr a b c hab hbc)]
          · by_cases hcb : lt c b = true
            · rw [if_neg (by simp [hbc]), if_pos hcb] at h23
              exact Bool.noConfusion h23
            · have hbcg := hcg b c (by simpa using hbc) (by simpa using hcb)
              have : lt a c = true := by rw [← (hbcg a).2]; exact hab
              rw [if_pos this]
        · by_cases hba : lt b a = true
          · rw [if_neg hab, if_pos hba] at h12
            exact Bool.noConfusion h12
          · have habg := hcg a b (by simpa using hab) (by simpa using hba)
            rw [if_neg hab, if_neg hba] at h12
            by_cases hbc : lt b c = true
            · have : lt a c = true := by rw [(habg c).1]; exact hbc
              rw [if_pos this]
            · by_cases hcb : lt c b = true
              · rw [if_neg (by simp [hbc]), if_pos hcb] at h23
                exact Bool.noConfusion h23
              · rw [if_neg (by simp [hbc]), if_neg (by simp [hcb])] at h23
                have hac : lt a c = false := by rw [(habg c).1]; simpa using hbc
                have hca : lt c a = false := by rw [(habg c).2]; simpa using hcb
                rw [if_neg (by simp [hac]), if_neg (by simp [hca])]
                exact ih bs cs h12 h23

/-- Incomparable lists under strict Nat comparison are equal. -/
theorem tilesLt_eq_of_incomp :
    ∀ (l1 l2 : List Nat),
      listLtBy (fun x y : Nat => decide (x < y)) l1 l2 = false →
      listLtBy (fun x y : Nat => decide (x < y)) l2 l1 = false → l1 = l2 := by
  intro l1
  induction l1 with
  | nil =>
    intro l2 h1 h2
    cases l2 with
    | nil => rfl
    | cons b bs => simp [listLtBy] at h1
  | cons a as ih =>
    intro l2 h1 h2
    cases l2 with
    | nil => simp [listLtBy] at h2
    | cons b bs =>
      by_cases hab : a < b
      · simp [listLtBy, hab] at h1
      · by_cases hba : b < a
        · simp [listLtBy, hab, hba] at h2
        · have heq : a = b := by omega
          subst heq
          simp only [listLtBy, decide_eq_true_eq, if_neg hab] at h1 h2
          rw [ih bs h1 h2]

/-- The board comparison is irreflexive. -/
theorem boardLt_irrefl (a : Board) : boardLt a a = false := by
  unfold boardLt
  rw [if_neg (by simp)]
  exact listLtBy_irrefl _ (fun x => by simp) a.tiles

/-- Incomparable boards agree on dimensions and tiles. -/
theorem boardLt_eq_of_incomp (a b : Board) (h1 : boardLt a b = false)
    (h2 : boardLt b a = false) : a.N = b.N ∧ a.M = b.M ∧ a.tiles = b.tiles := by
  unfold boardLt at h1 h2
  by_cases hd : a.N ≠ b.N ∨ a.M ≠ b.M
  · rw [if_pos hd] at h1
    rw [if_pos (by tauto)] at h2
    simp only [decide_eq_false_iff_not] at h1 h2
    exfalso
    rcases hd with hd | hd <;> omega
  · push_neg at hd
    rw [if_neg (by omega)] at h1
    rw [if_neg (by omega)] at h2
    exact ⟨hd.1, hd.2, tilesLt_eq_of_incomp _ _ h1 h2⟩

/-- The board comparison only reads dimensions and tiles. -/
theorem boardLt_congr {a b : Board} (hN : a.N = b.N) (hM : a.M = b.M)
    (ht : a.tiles = b.tiles) (z : Board) :
    boardLt a z = boardLt b z ∧ boardLt z a = boardLt z b := by
  unfold boardLt
  rw [hN, hM, ht]
  exact ⟨rfl, rfl⟩

/-- Strict Nat list comparison is transitive. -/
theorem tilesLt_trans :
    ∀ (l1 l2 l3 : List Nat),
      listLtBy (fun x y : Nat => decide (x < y)) l1 l2 = true →
      listLtBy (fun x y : Nat => decide (x < y)) l2 l3 = true →
      listLtBy (fun x y : Nat => decide (x < y)) l1 l3 = true := by
  refine listLtBy_trans _ (fun a b c h1 h2 => ?_) (fun a b h1 h2 z => ?_)
  · simp only [decide_eq_true_eq] at *
    omega
  · simp only [decide_eq_false_iff_not, decide_eq_true_eq] at h1 h2
    have : a = b := by omega
    subst this
    exact ⟨rfl, rfl⟩

/-- The board comparison is transitive. -/
theorem boardLt_trans (a b c : Board) (h1 : boardLt a b = true)
    (h2 : boardLt b c = true) : boardLt a c = true := by
  by_cases hab : a.N = b.N ∧ a.M = b.M
  · by_cases hbc : b.N = c.N ∧ b.M = c.M
    · unfold boardLt at h1 h2 ⊢
      rw [if_neg (by omega)] at h1
      rw [if_neg (by omega)] at h2
      rw [if_neg (by omega)]
      exact tilesLt_trans _ _ _ h1 h2
    · unfold boardLt at h2 ⊢
      rw [if_pos (by tauto)] at h2
      simp only [decide_eq_true_eq] at h2
      rw [if_pos (by omega), decide_eq_true_eq]
      omega
  · by_cases hbc : b.N = c.N ∧ b.M = c.M
    · unfold boardLt at h1 ⊢
      rw [if_pos (by tauto)] at h1
      simp only [decide_eq_true_eq] at h1
      rw [if_pos (by omega), decide_eq_true_eq]
      omega
    · unfold boardLt at h1 h2 ⊢
      rw [if_pos (by tauto)] at h1
      rw [if_pos (by tauto)] at h2
      simp only [decide_eq_true_eq] at h1 h2
      rw [if_pos (by omega), decide_eq_true_eq]
      omega

/-- The path comparison is transitive. -/
theorem pathLt_trans (p1 p2 p3 : List Board)
    (h1 : listLtBy boardLt p1 p2 = true) (h2 : listLtBy boardLt p2 p3 = true) :
    listLtBy boardLt p1 p3 = true := by
  refine listLtBy_trans boardLt boardLt_trans (fun a b ha hb z => ?_) p1 p2 p3 h1 h2
  obtain ⟨hN, hM, ht⟩ := boardLt_eq_of_incomp a b ha hb
  exact boardLt_congr hN hM ht z

/-- The solution comparison is transitive. -/
theorem solutionLt_trans (a b c : Solution) (h1 : solutionLt a b = true)
    (h2 : solutionLt b c = true) : solutionLt a c = true := by
  unfold solutionLt at *
  by_cases hab : a.cost = b.cost
  · by_cases hbc : b.cost = c.cost
    · rw [if_neg (by omega)] at h1 h2 ⊢
      exact pathLt_trans _ _ _ h1 h2
    · rw [if_pos (by omega)] at h2
      rw [if_pos (by omega)]
      simp only [decide_eq_true_eq] at h2 ⊢
      omega
  · by_cases hbc : b.cost = c.cost
    · rw [if_pos (by omega)] at h1
      rw [if_pos (by omega)]
      simp only [decide_eq_true_eq] at h1 ⊢
      omega
    · rw [if_pos (by omega)] at h1 h2
      simp only [decide_eq_true_eq] at h1 h2
      rw [if_pos (by omega), decide_eq_true_eq]
      omega

/-- Two solutions with identical cost and path never compare as smaller. -/
theorem solutionLt_of_identical (a b : Solution) (hc : a.cost = b.cost)
    (hp : a.path = b.path) : solutionLt a b = false := by
  unfold solutionLt
  rw [hc, hp, if_neg (by simp)]
  exact listLtBy_irrefl boardLt boardLt_irrefl b.path

/-- Members of an ordered-set insertion are the inserted element or old
members. -/
theorem mem_setInsert (x z : Solution) :
    ∀ (l : List Solution), z ∈ setInsert l x → z = x ∨ z ∈ l := by
  intro l
  induction l with
  | nil =>
    intro h
    simp [setInsert] at h
    exact Or.inl h
  | cons y ys ih =>
    intro h
    unfold setInsert at h
    by_cases h1 : solutionLt x y = true
    · rw [if_pos h1] at h
      rcases List.mem_cons.mp h with rfl | h2
      · exact Or.inl rfl
      · exact Or.inr h2
    · rw [if_neg h1] at h
      by_cases h2 : solutionLt y x = true
      · rw [if_pos h2] at h
        rcases List.mem_cons.mp h with rfl | h3
        · exact Or.inr (List.mem_cons_self _ _)
        · rcases ih h3 with h4 | h4
          · exact Or.inl h4
          · exact Or.inr (List.mem_cons_of_mem _ h4)
      · rw [if_neg h2] at h
        exact Or.inr h

/-- Ordered-set insertion preserves strict sortedness. -/
theorem setInsert_pairwise (x : Solution) :
    ∀ (l : List Solution), List.Pairwise (fun a b => solutionLt a b = true) l →
      List.Pairwise (fun a b => solutionLt a b = true) (setInsert l x) := by
  intro l
  induction l with
  | nil =>
    intro _
    simp [setInsert]
  | cons y ys ih =>
    intro hs
    rw [List.pairwise_cons] at hs
    obtain ⟨hy, hys⟩ := hs
    unfold setInsert
    by_cases h1 : solutionLt x y = true
    · rw [if_pos h1]
      refine List.Pairwise.cons ?_ (List.Pairwise.cons hy hys)
      intro z hz
      rcases List.mem_cons.mp hz with rfl | h2
      · exact h1
      · exact solutionLt_trans x y z h1 (hy z h2)
    · rw [if_neg h1]
      by_cases h2 : solutionLt y x = true
      · rw [if_pos h2]
        refine List.Pairwise.cons ?_ (ih hys)
        intro z hz
        rcases mem_setInsert x z ys hz with rfl | h3
        · exact h2
        · exact hy z h3
      · rw [if_neg h2]
        exact List.Pairwise.cons hy hys

/-- Folding ordered-set insertions over any stream of solutions keeps the
collector strictly sorted. -/
theorem foldl_setInsert_pairwise (sols : List Solution) :
    ∀ (acc : List Solution), List.Pairwise (fun a b => solutionLt a b = true) acc →
      List.Pairwise (fun a b => solutionLt a b = true) (sols.foldl setInsert acc) := by
  induction sols with
  | nil => intro acc h; exact h
  | cons s rest ih =>
    intro acc h
    rw [List.foldl_cons]
    exact ih (setInsert acc s) (setInsert_pairwise s acc h)

/-- Claim C9: whatever solutions the workers insert, the extracted result
contains at most K entries, is strictly sorted by the solution comparison
(ascending cost, ties by lexicographic path order), and never contains two
entries with identical cost and path. -/
theorem collector_extract_spec (sols : List Solution) (K : Nat) :
    (extractTopK (sols.foldl setInsert []) K).length ≤ K ∧
    List.Pairwise (fun a b => solutionLt a b = true)
      (extractTopK (sols.foldl setInsert []) K) ∧
    List.Pairwise (fun a b => ¬(a.cost = b.cost ∧ a.path = b.path))
      (extractTopK (sols.foldl setInsert []) K) := by
  have hp : List.Pairwise (fun a b => solutionLt a b = true) (sols.foldl setInsert []) :=
    foldl_setInsert_pairwise sols [] List.Pairwise.nil
  have htake : List.Pairwise (fun a b => solutionLt a b = true)
      (extractTopK (sols.foldl setInsert []) K) :=
    List.Pairwise.sublist (List.take_sublist K _) hp
  refine ⟨List.length_take_le K _, htake, ?_⟩
  refine htake.imp ?_
  intro a b h hid
  rw [solutionLt_of_identical a b hid.1 hid.2] at h
  exact Bool.noConfusion h

/-- Witness for claim C2 at the solved 2-by-2 board. -/
theorem manhattan_admissible_and_consistent_witness :
    BoardValid (mkBoard 2 2 [1, 2, 3, 0]) ∧
    ((∀ (k : Nat) (g : Board), SwapPath (mkBoard 2 2 [1, 2, 3, 0]) k g →
        g.is_goal = true → (mkBoard 2 2 [1, 2, 3, 0]).get_manhattan_distance ≤ k) ∧
     (∀ b2 ∈ (mkBoard 2 2 [1, 2, 3, 0]).get_neighbors_adjacent_swap,
        (mkBoard 2 2 [1, 2, 3, 0]).get_manhattan_distance ≤
          1 + b2.get_manhattan_distance)) :=
  ⟨by decide, manhattan_admissible_and_consistent (mkBoard 2 2 [1, 2, 3, 0]) (by decide)⟩

/-- Witness for claim C10 at a concrete 2-by-3 board with the blank in the
middle of the bottom row. -/
theorem blockShift_neighbor_count_witness :
    (0 ≤ (mkBoard 2 3 [1, 2, 3, 4, 0, 5]).empty_row ∧
      (mkBoard 2 3 [1, 2, 3, 4, 0, 5]).empty_row < ((mkBoard 2 3 [1, 2, 3, 4, 0, 5]).N : Int) ∧
      0 ≤ (mkBoard 2 3 [1, 2, 3, 4, 0, 5]).empty_col ∧
      (mkBoard 2 3 [1, 2, 3, 4, 0, 5]).empty_col < ((mkBoard 2 3 [1, 2, 3, 4, 0, 5]).M : Int)) ∧
    (mkBoard 2 3 [1, 2, 3, 4, 0, 5]).get_neighbors_block_shift.length =
      ((mkBoard 2 3 [1, 2, 3, 4, 0, 5]).N - 1) + ((mkBoard 2 3 [1, 2, 3, 4, 0, 5]).M - 1) := by
  refine ⟨by decide, blockShift_neighbor_count _ (by decide) (by decide) (by decide) (by decide)⟩

end NumberSlider
